import Mathlib

/-!
Verification development for the FreeCAD_TopoHasher_PuLs4r_V1 macro
(`src/FreeCAD_TopoHasher_PuLs4r_V1.py`).

Shallow embedding conventions:
* FreeCAD document objects are modelled as `FCObj` records.  FreeCAD
  guarantees unique `Name`s inside a document, so object references
  (`obj.OutList`, set membership of objects) are modelled by name.
* `time.time()` / timer delays are modelled as `Nat` milliseconds passed in
  as a `now` argument; `time.strftime(...)` is modelled by `toString now`.
* Python's per-call mutation of globals is modelled by explicit state
  records (`EngineState` for the fingerprint engine, `ObsState` for the
  observer / scheduler globals).
* `get_feature_data` + `calculate_hash` (lines 89-141) reduce the host
  object's attributes to an MD5 hex digest; per-attribute normalisation and
  MD5 are host/library functionality whose only property used downstream is
  that they yield a 32-character hex string.  They are abstracted as a
  parameter `hashOf : FCObj → Except String String`; an `Except.error`
  models a Python exception raised inside the `try:` block of
  `process_feature` (any step of the per-entity fingerprinting).
* Python `dict` update / `defaultdict(list)` / `set.add` are modelled by
  insertion-ordered association lists (`pyDictSet`, `appendPropIfAbsent`,
  `addToQueue`), matching Python 3.7+ dict ordering.
-/

namespace TopoHasher

/-- Configuration record mirroring the `config` dict (lines 20-27). -/
structure Config where
  history_length : Nat
  recompute_delay : Nat
  dependency_depth : Nat
  batch_size : Nat
  edit_check_interval : Nat
  throttle_interval : Nat
deriving DecidableEq, Repr

/-- The concrete configuration values of the source (lines 20-27). -/
def config : Config :=
  { history_length := 5
    recompute_delay := 300
    dependency_depth := 3
    batch_size := 50
    edit_check_interval := 200
    throttle_interval := 100 }

/-- Model of a FreeCAD document object as far as this macro observes and
mutates it.  `timeStamp = none` models an object that does not expose a
`TimeStamp` attribute (so `getattr(obj, "TimeStamp", 0)` yields `0`);
`featureHash` / `featureHistory` are `none` while the corresponding custom
property has not been created by `addProperty`.  `outList` is `obj.OutList`
as the list of the referenced objects' names. -/
structure FCObj where
  name : String
  label : String
  timeStamp : Option Nat
  featureHash : Option String
  featureHistory : Option (List String)
  outList : List String
deriving DecidableEq, Repr

/-- Python dict assignment `d[k] = v`: replace the value in place if the key
is present, otherwise append the binding (Python dicts keep insertion
order). -/
def pyDictSet {α : Type} (d : List (String × α)) (k : String) (v : α) :
    List (String × α) :=
  match d.find? (fun p => p.1 == k) with
  | some _ => d.map (fun p => if p.1 == k then (k, v) else p)
  | none => d ++ [(k, v)]

/-- Python `str.endswith`: character-level suffix test. -/
def pyEndsWith (s suffix : String) : Bool :=
  suffix.data.isSuffixOf s.data

/-- Model of the history entry `f"{timestamp}: {feature_hash}"` (lines
170-171); `time.strftime` is modelled as `toString now`. -/
def mkHistoryEntry (now : Nat) (h : String) : String :=
  toString now ++ ": " ++ h

/-- Global mutable state consumed by `process_feature` (lines 143-194):
`feature_cache` maps an object name to `(time.time(), hash)`;
`dependency_cache` is only ever deleted from in the source, so just its key
set is kept; `warnings` records `FreeCAD.Console.PrintWarning` output.
`recomputes` is pure instrumentation: it counts how often the hash
computation of lines 156-157 actually ran (it is incremented exactly
there and read by no definition). -/
structure EngineState where
  feature_cache : List (String × Nat × String)
  dependency_cache : List String
  warnings : List String
  recomputes : Nat
deriving DecidableEq, Repr

/-- Transcription of `process_feature` (lines 143-194).

* The fast-path cache check of lines 148-153 (`getattr(obj, "TimeStamp", 0)
  <= cache_time`) becomes `obj.timeStamp.getD 0 ≤ cache_time`.
* `hashOf` stands for `calculate_hash(get_feature_data(obj))` (lines
  156-157); an `Except.error` is a raised exception, landing in the
  `except` handler of lines 191-192 which logs a warning naming the object
  and falls through to `return False`.
* `addProperty` (lines 160-164) creates the property with FreeCAD's default
  value (`[]` for a string list, `""` for a string), after which
  `hasattr` is true, so the guard of line 167 reduces to the hash
  comparison.
* `history[-1] = history_entry` (line 174) mutates the list object obtained
  from the property in place, modelled as writing back the list with its
  last element replaced; `history[-config["history_length"]:]` (line 177)
  is `List.rtake`. -/
def process_feature (hashOf : FCObj → Except String String) (now : Nat)
    (obj : FCObj) (st : EngineState) : Bool × FCObj × EngineState :=
  -- Cache-Überprüfung (lines 148-153)
  let skip : Bool :=
    match st.feature_cache.lookup obj.name with
    | some (cache_time, _) => obj.timeStamp.getD 0 ≤ cache_time
    | none => false
  if skip then (false, obj, st)
  else
    -- Hash berechnen (lines 156-157)
    match hashOf obj with
    | .error e =>
      (false, obj,
        { st with warnings :=
            st.warnings ++ ["Fehler bei " ++ obj.name ++ ": " ++ e] })
    | .ok feature_hash =>
      let st := { st with recomputes := st.recomputes + 1 }
      -- Properties erstellen falls nötig (lines 160-164)
      let obj := if obj.featureHistory.isNone then
          { obj with featureHistory := some [] } else obj
      let obj := if obj.featureHash.isNone then
          { obj with featureHash := some "" } else obj
      -- Nur aktualisieren wenn nötig (line 167)
      if obj.featureHash ≠ some feature_hash then
        let history := obj.featureHistory.getD []
        let history_entry := mkHistoryEntry now feature_hash
        let history' :=
          match history.getLast? with
          | some last =>
            if pyEndsWith last feature_hash then
              -- history[-1] = history_entry (line 174)
              history.dropLast ++ [history_entry]
            else
              (history ++ [history_entry]).rtake config.history_length
          | none =>
            (history ++ [history_entry]).rtake config.history_length
        let obj := { obj with featureHistory := some history' }
        -- Hash aktualisieren (lines 180-185)
        let obj := { obj with featureHash := some feature_hash }
        let st := { st with
          feature_cache := pyDictSet st.feature_cache obj.name (now, feature_hash),
          dependency_cache := st.dependency_cache.erase obj.name }
        (true, obj, st)
      else
        -- line 189
        (false, obj,
          { st with feature_cache :=
              pyDictSet st.feature_cache obj.name (now, feature_hash) })

/-- The names of a list of document objects (`[obj.Name for obj in objects]`). -/
def namesOf (objects : List FCObj) : List String :=
  objects.map (fun o => o.name)

/-- The dependency graph built by `sort_by_dependencies` (lines 199-201):
`graph[obj.Name] = [child.Name for child in obj.OutList if child in objects]`.
Membership of the referenced object in `objects` is tested by name (FreeCAD
names are unique within a document). -/
def buildGraph (objects : List FCObj) : List (String × List String) :=
  objects.map (fun o => (o.name, o.outList.filter (fun c => (namesOf objects).contains c)))

/-- Python's `graph.get(node_name, [])`. -/
def graphGet (g : List (String × List String)) (n : String) : List String :=
  ((g.find? (fun p => p.1 == n)).map (fun p => p.2)).getD []

/-- The recursive `visit` closure of `sort_by_dependencies` (lines 207-216),
acting on the state `(visited, result)`.  `visited` is a set of names
(modelled as a list, membership only), `result` the output list.  The
unbounded Python recursion is bounded by `fuel`: every frame that does real
work adds a fresh name to `visited` and all visited names come from the
finite input, so `fuel = objects.length + 1` (as passed by
`sort_by_dependencies` below) never runs out before the Python recursion
would have returned. -/
def visit (objects : List FCObj) (g : List (String × List String)) :
    Nat → String → List String × List FCObj → List String × List FCObj
  | 0, _, st => st
  | fuel + 1, node, st =>
    if node ∈ st.1 then st
    else
      let st := (node :: st.1, st.2)
      let st := (graphGet g node).foldl (fun st c => visit objects g fuel c st) st
      match objects.find? (fun o => o.name == node) with
      | some o => (st.1, st.2 ++ [o])
      | none => st

/-- Transcription of `sort_by_dependencies` (lines 196-221): depth-first
post-order over the name graph, seeded from each input object in input
order.  The output is fully determined by the input list and the
`outList` edges (the embedding is a pure function), which settles the
determinism half of the sorter's contract definitionally. -/
def sort_by_dependencies (objects : List FCObj) : List FCObj :=
  let g := buildGraph objects
  (objects.foldl (fun st o => visit objects g (objects.length + 1) o.name st)
    ([], [])).2

/-- Resolution of `obj.OutList` to document objects: each referenced name is
looked up in the document's object list (the host resolves references for
us; names absent from `doc` simply resolve to nothing). -/
def getChildren (doc : List FCObj) (o : FCObj) : List FCObj :=
  o.outList.filterMap (fun n => doc.find? (fun d => d.name == n))

/-- Transcription of `process_with_depth_limit` (lines 223-241), returning
the insertion-ordered `processed` set of names, which is exactly the
sequence of `process_feature` invocations of line 232.  The Python
recursion is bounded by `fuel`; `process_affected_features` passes
`fuel = depth`, which for `depth ≥ 1` reproduces the Python call tree
exactly: `depth` strictly decreases on recursion and the function returns
before recursing once `depth == 1`. -/
def process_with_depth_limit (doc : List FCObj) :
    Nat → FCObj → Nat → List String → List String
  | 0, _, _, processed => processed
  | fuel + 1, obj, depth, processed =>
    if obj.name ∈ processed then processed
    else
      let processed := processed ++ [obj.name]
      -- Rekursionsabbruch bei Tiefe 1 (line 235)
      if depth == 1 then processed
      else
        let next_depth := if depth > 0 then depth - 1 else 0
        (getChildren doc obj).foldl
          (fun acc c => process_with_depth_limit doc fuel c next_depth acc)
          processed

/-- Transcription of `process_affected_features` (lines 243-248) with the
configured `dependency_depth` generalised to a parameter `depth`; the
`FreeCAD.ActiveDocument` guard is the hypothesis that `doc` is the active
document. -/
def process_affected_features (doc : List FCObj) (obj : FCObj) (depth : Nat) :
    List String :=
  process_with_depth_limit doc depth obj depth []

/-- Reachability within `k` steps along resolved `outList` edges:
`reachB doc k o n` is true iff object name `n` is reachable from `o` by
following at most `k` outgoing dependency references. -/
def reachB (doc : List FCObj) : Nat → FCObj → String → Bool
  | 0, o, n => o.name == n
  | k + 1, o, n => o.name == n || (getChildren doc o).any (fun c => reachB doc k c n)

/-- The extended ignored-property list of `DocumentObserver.__init__`
(lines 290-294). -/
def ignored_props : List String :=
  ["FeatureHash", "FeatureHistory", "_GroupTouched",
   "Visibility", "FullyConstrained",
   "EditModes", "EditMode", "EditCurves", "EditHighlight", "HiddenLines"]

/-- Python `set.add` for the recompute queue of document objects, keyed by
the unique object name. -/
def addToQueue (q : List FCObj) (obj : FCObj) : List FCObj :=
  if q.any (fun o => o.name == obj.name) then q else q ++ [obj]

/-- The `defaultdict(list)` pattern
`if prop not in changed_properties[label]: changed_properties[label].append(prop)`. -/
def appendPropIfAbsent (cp : List (String × List String)) (label p : String) :
    List (String × List String) :=
  let cur := (cp.lookup label).getD []
  pyDictSet cp label (if p ∈ cur then cur else cur ++ [p])

/-- Python `set.add` on a set of property-name strings, kept in insertion
order. -/
def insertIfAbsent (l : List String) (p : String) : List String :=
  if p ∈ l then l else l ++ [p]

/-- The module-level mutable state of the observer/scheduler part of the
source, together with the `DocumentObserver` instance fields:

* `active` / `observer_active` (lines 288, 30), the suspension flags
  `edit_mode_active` / `task_panel_active` / `changes_during_task`
  (lines 39-41), `pending_output` (line 36);
* `recompute_queue` (line 31, a set of objects), `changed_properties`
  (line 33, label → list of property names);
* `last_change_time` (line 296), `throttle_queue` (line 297,
  name → (object, property set)), the single-shot throttle timer
  (lines 374-380) as its pending fire deadline;
* the single-shot recompute timer (lines 618-624) as its pending fire
  deadline.

Two instrumentation-only fields record externally observable hand-offs and
are read by no transition: `acceptLog` gets one `(label, props)` entry each
time a change is accepted on the normal-mode path (immediately before
`start_recompute_timer` is invoked from `slotCreatedObject`,
`slotChangedObject` or `process_throttled_changes`), and `processedLog`
records the objects handed to `process_affected_features` by
`on_recompute_timer` (line 601), i.e. which entities get fingerprinted and
in which order. -/
structure ObsState where
  active : Bool
  observer_active : Bool
  edit_mode_active : Bool
  task_panel_active : Bool
  changes_during_task : Bool
  pending_output : Bool
  recompute_queue : List FCObj
  changed_properties : List (String × List String)
  last_change_time : Nat
  throttle_queue : List (String × FCObj × List String)
  throttle_deadline : Option Nat
  recompute_deadline : Option Nat
  acceptLog : List (String × List String)
  processedLog : List String
deriving DecidableEq, Repr

/-- The module-initialisation state (lines 29-42): everything empty, the
observers active, no suspension; `last_change_time` of the observer is its
construction time, taken as instant `0` of the model. -/
def initialObsState : ObsState :=
  { active := true
    observer_active := true
    edit_mode_active := false
    task_panel_active := false
    changes_during_task := false
    pending_output := false
    recompute_queue := []
    changed_properties := []
    last_change_time := 0
    throttle_queue := []
    throttle_deadline := none
    recompute_deadline := none
    acceptLog := []
    processedLog := [] }

/-- Transcription of `start_recompute_timer` (lines 610-624): while a
suspension flag is up it returns without touching the timer; otherwise the
previous pending firing is cancelled and the single-shot debounce timer is
re-armed for `recompute_delay` from now. -/
def start_recompute_timer (now : Nat) (s : ObsState) : ObsState :=
  if s.edit_mode_active || s.task_panel_active then s
  else { s with recompute_deadline := some (now + config.recompute_delay) }

/-- Transcription of `on_recompute_timer` (lines 577-608): empty queue or
active suspension abort the handler without consuming anything; otherwise
the queue is ordered by `sort_by_dependencies` and each object is handed to
`process_affected_features` (recorded in `processedLog`; the per-entity
fingerprinting itself is `process_feature` above), after which queue,
change record and pending-output flag are cleared.  Batch slicing and
`processEvents` (lines 597-602) only yield control and do not change the
modelled state. -/
def on_recompute_timer (s : ObsState) : ObsState :=
  if s.recompute_queue.isEmpty then s
  else if s.edit_mode_active || s.task_panel_active then s
  else
    { s with
      processedLog := s.processedLog ++ namesOf (sort_by_dependencies s.recompute_queue)
      recompute_queue := []
      changed_properties := []
      pending_output := false }

/-- Expiry of the single-shot recompute timer: a pending deadline is
consumed and `on_recompute_timer` runs. -/
def fire_recompute_timer (s : ObsState) : ObsState :=
  match s.recompute_deadline with
  | some _ => on_recompute_timer { s with recompute_deadline := none }
  | none => s

/-- Transcription of `DocumentObserver.queue_change` (lines 365-380): merge
the properties into the per-object buffer entry (creating it if absent; the
stored object reference stays the first one seen) and re-arm the single-shot
throttle timer for `throttle_interval` from now. -/
def queue_change (now : Nat) (obj : FCObj) (props : List String) (s : ObsState) :
    ObsState :=
  let tq :=
    match s.throttle_queue.find? (fun e => e.1 == obj.name) with
    | some _ =>
      s.throttle_queue.map (fun e =>
        if e.1 == obj.name then (e.1, e.2.1, props.foldl insertIfAbsent e.2.2) else e)
    | none => s.throttle_queue ++ [(obj.name, obj, props.foldl insertIfAbsent [])]
  { s with throttle_queue := tq, throttle_deadline := some (now + config.throttle_interval) }

/-- Transcription of `DocumentObserver.slotChangedObject` (lines 331-363).
The throttle test `time.time() - self.last_change_time <
config["throttle_interval"] / 1000.0` is `now - s.last_change_time <
config.throttle_interval` in model milliseconds. -/
def slotChangedObject (now : Nat) (obj : FCObj) (prop : String) (s : ObsState) :
    ObsState :=
  if !(s.active && s.observer_active) || ignored_props.contains prop then s
  else if now - s.last_change_time < config.throttle_interval then
    queue_change now obj [prop] s
  else
    let s := { s with last_change_time := now }
    if s.edit_mode_active || s.task_panel_active then
      -- Nur Änderungen sammeln (lines 346-352)
      { s with
        recompute_queue := addToQueue s.recompute_queue obj
        changed_properties := appendPropIfAbsent s.changed_properties obj.label prop
        changes_during_task := true }
    else
      -- Normaler Modus - direkt verarbeiten (lines 354-363)
      let s := { s with
        recompute_queue := addToQueue s.recompute_queue obj
        changed_properties := appendPropIfAbsent s.changed_properties obj.label prop }
      let s := if s.pending_output then s else { s with pending_output := true }
      let s := { s with acceptLog := s.acceptLog ++ [(obj.label, [prop])] }
      start_recompute_timer now s

/-- Transcription of `DocumentObserver.slotCreatedObject` (lines 300-329);
note the plain assignment `changed_properties[obj.Label] = ["Neues Objekt"]`
(lines 318, 324) rather than an append. -/
def slotCreatedObject (now : Nat) (obj : FCObj) (s : ObsState) : ObsState :=
  if !(s.active && s.observer_active) then s
  else if now - s.last_change_time < config.throttle_interval then
    queue_change now obj ["Neues Objekt"] s
  else
    let s := { s with last_change_time := now }
    if s.edit_mode_active || s.task_panel_active then
      { s with
        recompute_queue := addToQueue s.recompute_queue obj
        changed_properties := pyDictSet s.changed_properties obj.label ["Neues Objekt"]
        changes_during_task := true }
    else
      let s := { s with
        recompute_queue := addToQueue s.recompute_queue obj
        changed_properties := pyDictSet s.changed_properties obj.label ["Neues Objekt"] }
      let s := if s.pending_output then s else { s with pending_output := true }
      let s := { s with acceptLog := s.acceptLog ++ [(obj.label, ["Neues Objekt"])] }
      start_recompute_timer now s

/-- One iteration of the flush loop of
`DocumentObserver.process_throttled_changes` (lines 387-409), for one
buffered `(name, obj, props)` entry. -/
def flush_one (now : Nat) (s : ObsState) (entry : String × FCObj × List String) :
    ObsState :=
  let obj := entry.2.1
  let props := entry.2.2
  if s.edit_mode_active || s.task_panel_active then
    -- Nur Änderungen sammeln (lines 392-398)
    { s with
      recompute_queue := addToQueue s.recompute_queue obj
      changed_properties := props.foldl
        (fun cp p => appendPropIfAbsent cp obj.label p) s.changed_properties
      changes_during_task := true }
  else
    -- Normaler Modus - direkt verarbeiten (lines 400-409)
    let s := { s with
      recompute_queue := addToQueue s.recompute_queue obj
      changed_properties := props.foldl
        (fun cp p => appendPropIfAbsent cp obj.label p) s.changed_properties }
    let s := if s.pending_output then s else { s with pending_output := true }
    let s := { s with acceptLog := s.acceptLog ++ [(obj.label, props)] }
    start_recompute_timer now s

/-- Transcription of `DocumentObserver.process_throttled_changes`
(lines 382-413): flush every buffered entry through the same acceptance
logic as a direct event, then clear the buffer and stamp
`last_change_time`. -/
def process_throttled_changes (now : Nat) (s : ObsState) : ObsState :=
  let s' := s.throttle_queue.foldl (flush_one now) s
  { s' with throttle_queue := [], last_change_time := now }

/-- Expiry of the single-shot throttle timer (armed in `queue_change`):
consumes the pending deadline and runs `process_throttled_changes` at the
deadline instant. -/
def fire_throttle_timer (s : ObsState) : ObsState :=
  match s.throttle_deadline with
  | some t => { process_throttled_changes t s with throttle_deadline := none }
  | none => s

/-- Transcription of `check_edit_completion` (lines 525-544). -/
def check_edit_completion (now : Nat) (s : ObsState) : ObsState :=
  if s.task_panel_active then s
  else if s.changes_during_task && !s.recompute_queue.isEmpty then
    let s := { s with pending_output := true }
    start_recompute_timer now s
  else
    -- Änderungen verwerfen (lines 543-544)
    { s with recompute_queue := [], changed_properties := [] }

/-- Transcription of `check_task_completion` (lines 546-565). -/
def check_task_completion (now : Nat) (s : ObsState) : ObsState :=
  if s.edit_mode_active then s
  else if s.changes_during_task && !s.recompute_queue.isEmpty then
    let s := { s with pending_output := true }
    start_recompute_timer now s
  else
    { s with recompute_queue := [], changed_properties := [] }

/-- The suspension-enter edge of `EditModeObserver.check_edit_mode`
(lines 458-461): `edit_mode_active = True`, `changes_during_task = False`. -/
def enter_edit_mode (s : ObsState) : ObsState :=
  { s with edit_mode_active := true, changes_during_task := false }

/-- The suspension-exit edge of `EditModeObserver.check_edit_mode`
(lines 462-467): the flag drops and, after the 100 ms `singleShot` settle
delay, `check_edit_completion` runs at instant `now`. -/
def exit_edit_mode (now : Nat) (s : ObsState) : ObsState :=
  check_edit_completion now { s with edit_mode_active := false }

/-- The task-panel-open edge of `TaskPanelObserver.eventFilter`
(lines 497-501). -/
def enter_task_panel (s : ObsState) : ObsState :=
  { s with task_panel_active := true, changes_during_task := false }

/-- The last-task-panel-closed edge of `TaskPanelObserver.eventFilter`
(lines 508-516), followed by the delayed `check_task_completion`. -/
def exit_task_panel (now : Nat) (s : ObsState) : ObsState :=
  check_task_completion now { s with task_panel_active := false }

/-- A burst of change events for one entity: the host delivers each
`(time, property)` notification to `slotChangedObject` in order. -/
def runBurst (X : FCObj) (s : ObsState) (events : List (Nat × String)) : ObsState :=
  events.foldl (fun st tp => slotChangedObject tp.1 X tp.2 st) s

/-- One host interaction step with a single entity: at time `now` the host
may have mutated the entity's data (summarised by the outcome `res` of the
hash computation `calculate_hash(get_feature_data(obj))` for the mutated
data) and its last-modification timestamp `ts`; then `process_feature`
runs once. -/
structure FStep where
  now : Nat
  ts : Option Nat
  res : Except String String
deriving Repr

/-- Apply one `FStep` to an (entity, engine-state) pair. -/
def runStep (p : FCObj × EngineState) (s : FStep) : FCObj × EngineState :=
  let r := process_feature (fun _ => s.res) s.now { p.1 with timeStamp := s.ts } p.2
  (r.2.1, r.2.2)

/-- A whole sequence of `process_feature` calls on one entity. -/
def runSteps (p : FCObj × EngineState) (steps : List FStep) : FCObj × EngineState :=
  steps.foldl runStep p

/-- Abstract replay of the cache / stored-hash / history decisions of
`process_feature` for one entity: `changes` collects `(time, hash)` of
exactly the genuine hash changes (recomputations whose hash differs from
the stored `FeatureHash`). -/
structure AbsState where
  cache : Option (Nat × String)
  hash : Option String
  changes : List (Nat × String)
deriving DecidableEq, Repr

/-- One step of the abstract replay, mirroring the decision structure of
`process_feature`. -/
def absStep (a : AbsState) (s : FStep) : AbsState :=
  let skip : Bool :=
    match a.cache with
    | some (ct, _) => s.ts.getD 0 ≤ ct
    | none => false
  if skip then a
  else
    match s.res with
    | .error _ => a
    | .ok h =>
      if a.hash = some h then { a with cache := some (s.now, h) }
      else ⟨some (s.now, h), some h, a.changes ++ [(s.now, h)]⟩

/-- Whether a step's hash outcome (if any) has the 32 characters of an MD5
hex digest, as every `calculate_hash` result does (line 141). -/
def hashLenOk (s : FStep) : Bool :=
  match s.res with
  | .ok h => h.data.length == 32
  | .error _ => true

/-- The genuine hash changes of a call sequence, in call order. -/
def genuineChanges (steps : List FStep) : List (Nat × String) :=
  (steps.foldl absStep ⟨none, none, []⟩).changes

/-- Simulation relation between the concrete (entity, engine-state) pair of
a fresh single-entity run and the abstract replay state. -/
def Rel (name : String) (p : FCObj × EngineState) (a : AbsState) : Prop :=
  p.1.name = name
  ∧ p.2.feature_cache = (match a.cache with
      | none => ([] : List (String × Nat × String))
      | some c => [(name, c)])
  ∧ p.1.featureHash = a.hash
  ∧ p.1.featureHistory = (if a.changes = [] then none
      else some ((a.changes.rtake config.history_length).map
        (fun q => mkHistoryEntry q.1 q.2)))
  ∧ (a.hash = none ↔ a.changes = [])
  ∧ (∀ h, a.hash = some h → (a.changes.getLast?).map Prod.snd = some h)
  ∧ (∀ q ∈ a.changes, (q.2 : String).data.length = 32)
  ∧ List.Chain' (fun q r : Nat × String => q.2 ≠ r.2) a.changes

/-- Correctness of a prefix of the DFS output: every element's in-set
dependencies (its `graphGet` children) already occur among the names of the
elements placed before it. -/
def SortedOk (g : List (String × List String)) (r : List FCObj) : Prop :=
  ∀ l₁ o l₂, r = l₁ ++ o :: l₂ → ∀ c ∈ graphGet g o.name, c ∈ namesOf l₁

/-- Invariant of the `(visited, result)` state of the DFS of
`sort_by_dependencies`, relative to the names currently on the recursion
stack: visited names are either on the stack or already emitted, emitted
objects are visited members of the input with pairwise-distinct names, the
emitted prefix is dependency-closed (`SortedOk`), and all visited names come
from the input. -/
def VisitInv (objects : List FCObj) (g : List (String × List String))
    (stack : List String) (st : List String × List FCObj) : Prop :=
  (∀ v ∈ st.1, v ∈ stack ∨ v ∈ namesOf st.2)
  ∧ (∀ o ∈ st.2, o.name ∈ st.1)
  ∧ (∀ o ∈ st.2, o ∈ objects)
  ∧ (namesOf st.2).Nodup
  ∧ SortedOk g st.2
  ∧ (∀ v ∈ st.1, v ∈ namesOf objects)

/-!
Theorems.
-/

/-- Lookup after a Python dict assignment finds the assigned value. -/
theorem lookup_pyDictSet {α : Type} (d : List (String × α)) (k : String) (v : α) :
    (pyDictSet d k v).lookup k = some v := by
  unfold pyDictSet
  induction d with
  | nil => simp
  | cons a d ih =>
    by_cases hk : a.1 = k
    · rw [List.find?_cons_of_pos _ (by simp [hk])]
      simp only [List.map_cons, if_pos (by simp [hk] : (a.1 == k) = true)]
      exact List.lookup_cons_self
    · rw [List.find?_cons_of_neg _ (by simp [hk])]
      rcases hf : d.find? (fun p => p.1 == k) with _ | p <;> rw [hf] at ih ⊢
      · rw [List.cons_append, List.lookup_cons]
        simp only [show (k == a.1) = false by simp [Ne.symm hk]]
        exact ih
      · simp only [List.map_cons, if_neg (by simp [hk] : ¬ (a.1 == k) = true)]
        rw [List.lookup_cons]
        simp only [show (k == a.1) = false by simp [Ne.symm hk]]
        exact ih

/-- Claim C1.  The claim states that an entity with a fingerprint cache
entry but no exposed last-modification timestamp is always recomputed, and
that the cache-based "unchanged" skip is taken only when the entity's own
timestamp is available.  The code does the opposite: `getattr(obj,
"TimeStamp", 0)` (line 151) turns a missing timestamp into `0`, which
satisfies `last_modified <= cache_time` against any cache entry (line 152),
so the fast path *always* skips such an entity.  This theorem evaluates the
embedded `process_feature` at the failing input: the entity `"A"` exposes
no timestamp, holds a cache entry, and its current data hashes to `"h1"`,
different from both the cached and stored `"h0"` — yet the call returns
`False` and leaves the object, the cache and the recomputation counter
untouched (the skip), where the claim demands a recomputation. -/
theorem c1_missing_timestamp_skips :
    (FCObj.mk "A" "A" none (some "h0") (some ["0: h0"]) []).timeStamp = none
    ∧ (EngineState.mk [("A", 5, "h0")] [] [] 0).feature_cache.lookup "A"
        = some (5, "h0")
    ∧ process_feature (fun _ => .ok "h1") 20
        (FCObj.mk "A" "A" none (some "h0") (some ["0: h0"]) [])
        (EngineState.mk [("A", 5, "h0")] [] [] 0)
      = (false, FCObj.mk "A" "A" none (some "h0") (some ["0: h0"]) [],
         EngineState.mk [("A", 5, "h0")] [] [] 0) := by
  refine ⟨rfl, rfl, ?_⟩
  decide

/-- Claim C2, counterexample.  The claim states that the `feature_cache`
entry is overwritten iff the newly computed hash differs from the cached
one (or is absent), and in particular that a call whose computed hash
equals the stored `FeatureHash` leaves the cache entry unchanged.  Here the
computed hash `"h0"` equals the stored `FeatureHash` `"h0"`, yet line 189
overwrites the cache entry `("A", (3, "h0"))` with a fresh timestamp
`("A", (20, "h0"))`. -/
theorem c2_counterexample :
    (FCObj.mk "A" "A" (some 10) (some "h0") (some ["0: h0"]) []).featureHash
      = some "h0"
    ∧ (EngineState.mk [("A", 3, "h0")] [] [] 0).feature_cache.lookup "A"
        = some (3, "h0")
    ∧ ((process_feature (fun _ => .ok "h0") 20
          (FCObj.mk "A" "A" (some 10) (some "h0") (some ["0: h0"]) [])
          (EngineState.mk [("A", 3, "h0")] [] [] 0)).2.2.feature_cache.lookup "A"
        = some (20, "h0")) := by
  refine ⟨rfl, rfl, ?_⟩
  decide

/-- Claim C2, amended: the `feature_cache` entry of an entity is
overwritten (with the current time and the newly computed hash) on *every*
call of `process_feature` that passes the fast-path cache check and
computes its hash — whether or not that hash differs from the stored one —
while a fast-path skip or a raised exception leaves the cache untouched.
(The persisted `FeatureHash` property, by contrast, is rewritten only in
the differing-hash branch.) -/
theorem c2_cache_overwritten_on_every_recompute
    (hashOf : FCObj → Except String String) (now : Nat) (obj : FCObj)
    (st : EngineState) (h : String) (hok : hashOf obj = .ok h)
    (hnoskip : ∀ ct ch, st.feature_cache.lookup obj.name = some (ct, ch) →
      ct < obj.timeStamp.getD 0) :
    (process_feature hashOf now obj st).2.2.feature_cache.lookup obj.name
      = some (now, h)
    ∧ (∀ ct ch (st' : EngineState),
        st'.feature_cache.lookup obj.name = some (ct, ch) →
        obj.timeStamp.getD 0 ≤ ct →
        process_feature hashOf now obj st' = (false, obj, st'))
    ∧ (∀ (e : String) (st' : EngineState), hashOf obj = .error e →
        (process_feature hashOf now obj st').2.2.feature_cache
          = st'.feature_cache) := by
  refine ⟨?_, ?_, ?_⟩
  · unfold process_feature
    rcases hl : st.feature_cache.lookup obj.name with _ | ⟨ct, ch⟩
    · simp only [hl, hok, Bool.false_eq_true, reduceIte]
      split <;> split <;> (try split) <;> simp [lookup_pyDictSet]
    · have hlt : ¬ (obj.timeStamp.getD 0 ≤ ct) := Nat.not_le.mpr (hnoskip ct ch hl)
      simp only [hl, hok, hlt, decide_False, Bool.false_eq_true, reduceIte]
      split <;> split <;> (try split) <;> simp [lookup_pyDictSet]
  · intro ct ch st' hl hle
    simp [process_feature, hl, hle]
  · intro e st' herr
    unfold process_feature
    rcases hl : st'.feature_cache.lookup obj.name with _ | ⟨ct, ch⟩
    · simp [hl, herr]
    · by_cases hle : obj.timeStamp.getD 0 ≤ ct <;> simp [hl, herr, hle]

/-- Claim C2, witness. -/
theorem c2_witness :
    ((fun _ => Except.ok "h1" : FCObj → Except String String)
        (FCObj.mk "A" "A" (some 10) (some "h0") (some ["0: h0"]) []) = .ok "h1")
    ∧ ((process_feature (fun _ => .ok "h1") 20
          (FCObj.mk "A" "A" (some 10) (some "h0") (some ["0: h0"]) [])
          (EngineState.mk [("A", 3, "h0")] [] [] 0)).2.2.feature_cache.lookup "A"
        = some (20, "h1")) := by
  refine ⟨rfl, ?_⟩
  exact (c2_cache_overwritten_on_every_recompute (fun _ => .ok "h1") 20
    (FCObj.mk "A" "A" (some 10) (some "h0") (some ["0: h0"]) [])
    (EngineState.mk [("A", 3, "h0")] [] [] 0) "h1" rfl
    (by intro ct ch hc; simp [List.lookup] at hc; simp [hc.1.symm, hc.2.symm])).1

/-- Claim C9: if any step of the per-entity fingerprinting raises (modelled
by the hash computation returning `Except.error`), `process_feature`
catches it internally, appends a console warning naming the entity
(`"Fehler bei {obj.Name}: ..."`, line 192) and returns `False`, leaving
object and engine state otherwise unchanged.  The embedding's return type
is pure, so the exception cannot propagate to the caller and the rest of
the batch is unaffected.  (The hypothesis `hnoskip` just puts the call past
the fast-path cache check of lines 148-153, which runs no fallible step.) -/
theorem c9_exception_contained
    (hashOf : FCObj → Except String String) (now : Nat) (obj : FCObj)
    (st : EngineState) (e : String) (herr : hashOf obj = .error e)
    (hnoskip : ∀ ct ch, st.feature_cache.lookup obj.name = some (ct, ch) →
      ct < obj.timeStamp.getD 0) :
    process_feature hashOf now obj st =
      (false, obj,
        { st with warnings :=
            st.warnings ++ ["Fehler bei " ++ obj.name ++ ": " ++ e] }) := by
  unfold process_feature
  rcases hl : st.feature_cache.lookup obj.name with _ | ⟨ct, ch⟩
  · simp only [hl, herr, if_neg (by simp : ¬ (false = true))]
  · have hlt : ¬ (obj.timeStamp.getD 0 ≤ ct) := Nat.not_le.mpr (hnoskip ct ch hl)
    simp only [hl, herr, hlt, decide_eq_false, if_false, Bool.false_eq_true, if_neg]
    simp

/-- Claim C9, witness. -/
theorem c9_witness :
    ((fun _ => Except.error "boom" : FCObj → Except String String)
        (FCObj.mk "A" "A" (some 10) (some "h0") (some ["0: h0"]) []) = .error "boom")
    ∧ process_feature (fun _ => .error "boom") 20
        (FCObj.mk "A" "A" (some 10) (some "h0") (some ["0: h0"]) [])
        (EngineState.mk [("A", 3, "h0")] [] [] 0)
      = (false, FCObj.mk "A" "A" (some 10) (some "h0") (some ["0: h0"]) [],
         EngineState.mk [("A", 3, "h0")] [] ["Fehler bei A: boom"] 0) := by
  refine ⟨rfl, ?_⟩
  have := c9_exception_contained (fun _ => .error "boom") 20
    (FCObj.mk "A" "A" (some 10) (some "h0") (some ["0: h0"]) [])
    (EngineState.mk [("A", 3, "h0")] [] [] 0) "boom" rfl
    (by intro ct ch hc; simp [List.lookup] at hc; simp [hc.1.symm, hc.2.symm])
  simpa using this

/-- Following one resolved `outList` edge preserves bounded reachability. -/
theorem reachB_child (doc : List FCObj) (obj c : FCObj) (n : String) (k : Nat)
    (hc : c ∈ getChildren doc obj) (h : reachB doc k c n = true) :
    reachB doc (k + 1) obj n = true := by
  simp only [reachB, Bool.or_eq_true, List.any_eq_true]
  exact Or.inr ⟨c, hc, h⟩

/-- Invariants of the depth-limited traversal: the processed set only grows,
stays duplicate-free, every newly processed name lies within `depth - 1`
dependency steps of the root, and (with fuel left) the root itself is
processed. -/
theorem pwdl_spec (doc : List FCObj) :
    ∀ (fuel : Nat) (obj : FCObj) (depth : Nat) (acc : List String), 1 ≤ depth →
      (∀ n ∈ acc, n ∈ process_with_depth_limit doc fuel obj depth acc)
      ∧ (acc.Nodup → (process_with_depth_limit doc fuel obj depth acc).Nodup)
      ∧ (∀ n ∈ process_with_depth_limit doc fuel obj depth acc,
          n ∈ acc ∨ ∃ k, k ≤ depth - 1 ∧ reachB doc k obj n = true)
      ∧ (1 ≤ fuel → obj.name ∈ process_with_depth_limit doc fuel obj depth acc) := by
  intro fuel
  induction fuel with
  | zero =>
    intro obj depth acc _
    exact ⟨fun n hn => hn, fun h => h, fun n hn => Or.inl hn, fun h => absurd h (by omega)⟩
  | succ fuel ih =>
    intro obj depth acc hd
    by_cases hmem : obj.name ∈ acc
    · simp only [process_with_depth_limit, if_pos hmem]
      exact ⟨fun n hn => hn, fun h => h, fun n hn => Or.inl hn, fun _ => hmem⟩
    · have hself : reachB doc 0 obj obj.name = true := by simp [reachB]
      by_cases hd1 : depth = 1
      · subst hd1
        simp only [process_with_depth_limit, if_neg hmem, beq_self_eq_true, if_pos]
        refine ⟨fun n hn => List.mem_append_left _ hn, ?_, ?_, ?_⟩
        · intro hnd
          simpa using List.Nodup.append hnd (List.nodup_singleton _)
            (by simpa using fun h => hmem h)
        · intro n hn
          rcases List.mem_append.mp hn with h | h
          · exact Or.inl h
          · simp at h
            subst h
            exact Or.inr ⟨0, by omega, hself⟩
        · intro _
          exact List.mem_append_right _ (by simp)
      · have hd2 : 2 ≤ depth := by omega
        have hbeq : (depth == 1) = false := by simpa using hd1
        simp only [process_with_depth_limit, if_neg hmem, hbeq, Bool.false_eq_true, reduceIte,
          if_pos (show depth > 0 by omega)]
        have fold_spec : ∀ (cs : List FCObj) (acc₂ : List String),
            (∀ c ∈ cs, c ∈ getChildren doc obj) →
            (∀ n ∈ acc₂, n ∈ cs.foldl
              (fun a c => process_with_depth_limit doc fuel c (depth - 1) a) acc₂)
            ∧ (acc₂.Nodup → (cs.foldl
                (fun a c => process_with_depth_limit doc fuel c (depth - 1) a) acc₂).Nodup)
            ∧ (∀ n ∈ cs.foldl
                (fun a c => process_with_depth_limit doc fuel c (depth - 1) a) acc₂,
                n ∈ acc₂ ∨ ∃ k, k ≤ depth - 1 ∧ reachB doc k obj n = true) := by
          intro cs
          induction cs with
          | nil => exact fun acc₂ _ => ⟨fun n hn => hn, fun h => h, fun n hn => Or.inl hn⟩
          | cons c cs ihc =>
            intro acc₂ hsub
            obtain ⟨ih1, ih2, ih3, _⟩ := ih c (depth - 1) acc₂ (by omega)
            obtain ⟨f1, f2, f3⟩ := ihc
              (process_with_depth_limit doc fuel c (depth - 1) acc₂)
              (fun x hx => hsub x (List.mem_cons_of_mem _ hx))
            refine ⟨fun n hn => f1 n (ih1 n hn), fun hnd => f2 (ih2 hnd), ?_⟩
            intro n hn
            rcases f3 n hn with h | h
            · rcases ih3 n h with h' | ⟨k, hk, hr⟩
              · exact Or.inl h'
              · exact Or.inr ⟨k + 1, by omega,
                  reachB_child doc obj c n k (hsub c (List.mem_cons_self _ _)) hr⟩
            · exact Or.inr h
        obtain ⟨f1, f2, f3⟩ := fold_spec (getChildren doc obj) (acc ++ [obj.name])
          (fun c hc => hc)
        refine ⟨fun n hn => f1 n (List.mem_append_left _ hn), ?_, ?_, ?_⟩
        · intro hnd
          refine f2 ?_
          simpa using List.Nodup.append hnd (List.nodup_singleton _)
            (by simpa using fun h => hmem h)
        · intro n hn
          rcases f3 n hn with h | h
          · rcases List.mem_append.mp h with h' | h'
            · exact Or.inl h'
            · simp at h'
              subst h'
              exact Or.inr ⟨0, by omega, hself⟩
          · exact Or.inr h
        · intro _
          exact f1 obj.name (List.mem_append_right _ (by simp))

/-- Claim C5, counterexample.  The claim states that a dispatched entity's
outgoing dependents up to `d` levels deep are fingerprinted.  With
`dependencyDepth d = 1` and an entity `"A"` whose `OutList` holds `"B"`
(a dependent exactly 1 level deep, as witnessed by `reachB`), the pass
processes only `["A"]`: line 235 stops the recursion once the depth counter
reaches `1`, so dependents at level `d` are never reached (the pass covers
only levels `0 .. d-1`). -/
theorem c5_counterexample :
    reachB [FCObj.mk "A" "A" none none none ["B"],
            FCObj.mk "B" "B" none none none []] 1
        (FCObj.mk "A" "A" none none none ["B"]) "B" = true
    ∧ process_affected_features
        [FCObj.mk "A" "A" none none none ["B"],
         FCObj.mk "B" "B" none none none []]
        (FCObj.mk "A" "A" none none none ["B"]) 1 = ["A"]
    ∧ "B" ∉ process_affected_features
        [FCObj.mk "A" "A" none none none ["B"],
         FCObj.mk "B" "B" none none none []]
        (FCObj.mk "A" "A" none none none ["B"]) 1 := by
  refine ⟨by decide, by decide, by decide⟩

/-- Claim C5, amended: for a configured `dependencyDepth` `d ≥ 1`, the pass
dispatched for an entity fingerprints that entity and only entities within
`d - 1` levels of outgoing dependents (not `d`: the depth counter stops
recursion at `1`, so `d = 1` processes the entity alone), and the
visited-set makes the processed sequence duplicate-free, so no entity is
fingerprinted twice within one propagation pass. -/
theorem c5_depth_limited_traversal (doc : List FCObj) (obj : FCObj) (d : Nat)
    (hd : 1 ≤ d) :
    obj.name ∈ process_affected_features doc obj d
    ∧ (process_affected_features doc obj d).Nodup
    ∧ (∀ n ∈ process_affected_features doc obj d,
        ∃ k, k ≤ d - 1 ∧ reachB doc k obj n = true) := by
  obtain ⟨h1, h2, h3, h4⟩ := pwdl_spec doc d obj d [] hd
  exact ⟨h4 hd, h2 (by simp),
    fun n hn => (h3 n hn).resolve_left (by simp)⟩

/-- Claim C5, witness: the amended theorem evaluated at the configured
`dependency_depth = 3` on a three-level chain. -/
theorem c5_witness :
    1 ≤ config.dependency_depth
    ∧ ((FCObj.mk "A" "A" none none none ["B"]).name ∈ process_affected_features
        [FCObj.mk "A" "A" none none none ["B"],
         FCObj.mk "B" "B" none none none ["C"],
         FCObj.mk "C" "C" none none none []]
        (FCObj.mk "A" "A" none none none ["B"]) config.dependency_depth
      ∧ (process_affected_features
          [FCObj.mk "A" "A" none none none ["B"],
           FCObj.mk "B" "B" none none none ["C"],
           FCObj.mk "C" "C" none none none []]
          (FCObj.mk "A" "A" none none none ["B"]) config.dependency_depth).Nodup
      ∧ (∀ n ∈ process_affected_features
          [FCObj.mk "A" "A" none none none ["B"],
           FCObj.mk "B" "B" none none none ["C"],
           FCObj.mk "C" "C" none none none []]
          (FCObj.mk "A" "A" none none none ["B"]) config.dependency_depth,
          ∃ k, k ≤ config.dependency_depth - 1
            ∧ reachB [FCObj.mk "A" "A" none none none ["B"],
                      FCObj.mk "B" "B" none none none ["C"],
                      FCObj.mk "C" "C" none none none []] k
                (FCObj.mk "A" "A" none none none ["B"]) n = true)) :=
  ⟨by decide,
   c5_depth_limited_traversal
     [FCObj.mk "A" "A" none none none ["B"],
      FCObj.mk "B" "B" none none none ["C"],
      FCObj.mk "C" "C" none none none []]
     (FCObj.mk "A" "A" none none none ["B"]) config.dependency_depth (by decide)⟩

/-- Adding an object to the recompute queue always leaves an object of that
name in the queue. -/
theorem addToQueue_mem (q : List FCObj) (obj : FCObj) :
    ∃ o ∈ addToQueue q obj, o.name = obj.name := by
  unfold addToQueue
  split
  · rename_i hq
    obtain ⟨o, ho, hb⟩ := List.any_eq_true.mp hq
    exact ⟨o, ho, by simpa using hb⟩
  · exact ⟨obj, by simp, rfl⟩

/-- The recompute queue is nonempty after an object is added. -/
theorem addToQueue_isEmpty (q : List FCObj) (obj : FCObj) :
    (addToQueue q obj).isEmpty = false := by
  unfold addToQueue
  split
  · rename_i hq
    obtain ⟨o, ho, _⟩ := List.any_eq_true.mp hq
    cases q
    · simp at ho
    · rfl
  · rcases q <;> rfl

/-- While a suspension flag is up, flushing any sequence of throttle-buffer
entries only absorbs them: the flags, the recompute-timer deadline and the
instrumentation logs are untouched. -/
theorem flush_fold_susp (now : Nat) :
    ∀ (l : List (String × FCObj × List String)) (s : ObsState),
      (s.edit_mode_active || s.task_panel_active) = true →
      (l.foldl (flush_one now) s).edit_mode_active = s.edit_mode_active
      ∧ (l.foldl (flush_one now) s).task_panel_active = s.task_panel_active
      ∧ (l.foldl (flush_one now) s).recompute_deadline = s.recompute_deadline
      ∧ (l.foldl (flush_one now) s).acceptLog = s.acceptLog
      ∧ (l.foldl (flush_one now) s).processedLog = s.processedLog := by
  intro l
  induction l with
  | nil => intro s _; exact ⟨rfl, rfl, rfl, rfl, rfl⟩
  | cons e l ihl =>
    intro s hsusp
    have he : flush_one now s e = { s with
        recompute_queue := addToQueue s.recompute_queue e.2.1,
        changed_properties := e.2.2.foldl
          (fun cp p => appendPropIfAbsent cp e.2.1.label p) s.changed_properties,
        changes_during_task := true } := by
      unfold flush_one
      rw [if_pos hsusp]
    obtain ⟨f1, f2, f3, f4, f5⟩ := ihl (flush_one now s e) (by rw [he]; simpa using hsusp)
    rw [List.foldl_cons]
    refine ⟨?_, ?_, ?_, ?_, ?_⟩
    · rw [f1, he]
    · rw [f2, he]
    · rw [f3, he]
    · rw [f4, he]
    · rw [f5, he]

/-- Claim C7: while suspension is in effect (`edit_mode_active` or
`task_panel_active`), no change event triggers scheduling before the
suspension-exit edge: `slotChangedObject`/`slotCreatedObject` leave the
debounce deadline and the acceptance/dispatch logs untouched on every path
(absorb, throttle divert, inactive); `start_recompute_timer` returns
without arming the timer; a debounce firing during suspension aborts
without consuming `recompute_queue`/`changed_properties`; a throttle flush
during suspension only absorbs; and a directly delivered (non-throttled)
event is absorbed into `recompute_queue`/`changed_properties` with the
changes-occurred flag set. -/
theorem c7_suspension_buffering (s : ObsState)
    (hsusp : (s.edit_mode_active || s.task_panel_active) = true) :
    (∀ now obj prop,
      (slotChangedObject now obj prop s).recompute_deadline = s.recompute_deadline
      ∧ (slotChangedObject now obj prop s).acceptLog = s.acceptLog
      ∧ (slotChangedObject now obj prop s).processedLog = s.processedLog)
    ∧ (∀ now obj,
      (slotCreatedObject now obj s).recompute_deadline = s.recompute_deadline
      ∧ (slotCreatedObject now obj s).acceptLog = s.acceptLog
      ∧ (slotCreatedObject now obj s).processedLog = s.processedLog)
    ∧ (∀ now, start_recompute_timer now s = s)
    ∧ ((fire_recompute_timer s).recompute_queue = s.recompute_queue
      ∧ (fire_recompute_timer s).changed_properties = s.changed_properties
      ∧ (fire_recompute_timer s).processedLog = s.processedLog
      ∧ (fire_recompute_timer s).acceptLog = s.acceptLog)
    ∧ (∀ now,
      (process_throttled_changes now s).recompute_deadline = s.recompute_deadline
      ∧ (process_throttled_changes now s).acceptLog = s.acceptLog
      ∧ (process_throttled_changes now s).processedLog = s.processedLog)
    ∧ (∀ now obj prop, s.active = true → s.observer_active = true →
        prop ∉ ignored_props →
        ¬ (now - s.last_change_time < config.throttle_interval) →
        (∃ o ∈ (slotChangedObject now obj prop s).recompute_queue, o.name = obj.name)
        ∧ (slotChangedObject now obj prop s).changes_during_task = true) := by
  have hsusp' : ∀ t : Nat,
      (({ s with last_change_time := t } : ObsState).edit_mode_active
        || ({ s with last_change_time := t } : ObsState).task_panel_active) = true := by
    simpa using hsusp
  refine ⟨?_, ?_, ?_, ?_, ?_, ?_⟩
  · intro now obj prop
    unfold slotChangedObject
    by_cases h1 : (!(s.active && s.observer_active) || ignored_props.contains prop) = true
    · rw [if_pos h1]
      exact ⟨rfl, rfl, rfl⟩
    · rw [if_neg h1]
      by_cases h2 : now - s.last_change_time < config.throttle_interval
      · rw [if_pos h2]
        unfold queue_change
        exact ⟨rfl, rfl, rfl⟩
      · rw [if_neg h2, if_pos (hsusp' now)]
        exact ⟨rfl, rfl, rfl⟩
  · intro now obj
    unfold slotCreatedObject
    by_cases h1 : (!(s.active && s.observer_active)) = true
    · rw [if_pos h1]
      exact ⟨rfl, rfl, rfl⟩
    · rw [if_neg h1]
      by_cases h2 : now - s.last_change_time < config.throttle_interval
      · rw [if_pos h2]
        unfold queue_change
        exact ⟨rfl, rfl, rfl⟩
      · rw [if_neg h2, if_pos (hsusp' now)]
        exact ⟨rfl, rfl, rfl⟩
  · intro now
    unfold start_recompute_timer
    rw [if_pos hsusp]
  · unfold fire_recompute_timer
    rcases hd : s.recompute_deadline with _ | t
    · exact ⟨rfl, rfl, rfl, rfl⟩
    · unfold on_recompute_timer
      by_cases h1 : (({ s with recompute_deadline := none } : ObsState).recompute_queue.isEmpty) = true
      · rw [if_pos h1]
        exact ⟨rfl, rfl, rfl, rfl⟩
      · rw [if_neg h1, if_pos (by simpa using hsusp)]
        exact ⟨rfl, rfl, rfl, rfl⟩
  · intro now
    unfold process_throttled_changes
    obtain ⟨f1, f2, f3, f4, f5⟩ := flush_fold_susp now s.throttle_queue s hsusp
    exact ⟨f3, f4, f5⟩
  · intro now obj prop ha hoa hp hthr
    unfold slotChangedObject
    rw [if_neg (by simp [ha, hoa, hp]), if_neg (by simpa using hthr), if_pos (hsusp' now)]
    exact ⟨addToQueue_mem s.recompute_queue obj, rfl⟩

/-- Claim C7, witness: the suspended-state conclusions evaluated with the
edit flag up. -/
theorem c7_witness :
    ((({ initialObsState with edit_mode_active := true } : ObsState).edit_mode_active
      || ({ initialObsState with edit_mode_active := true } : ObsState).task_panel_active) = true)
    ∧ start_recompute_timer 7 { initialObsState with edit_mode_active := true }
        = { initialObsState with edit_mode_active := true }
    ∧ (fire_recompute_timer { initialObsState with edit_mode_active := true }).recompute_queue
        = ({ initialObsState with edit_mode_active := true } : ObsState).recompute_queue :=
  ⟨by decide,
   (c7_suspension_buffering { initialObsState with edit_mode_active := true }
     (by decide)).2.2.1 7,
   (c7_suspension_buffering { initialObsState with edit_mode_active := true }
     (by decide)).2.2.2.1.1⟩

/-- Claim C8: entering suspension resets the changes-occurred flag, and at a
full suspension exit (both flags down) with no change accepted during the
window (`changes_during_task` still false) the exit handlers
`check_edit_completion`/`check_task_completion` discard: `recompute_queue`
and `changed_properties` are empty afterwards and no scheduling dispatch is
emitted (debounce deadline, acceptance log and dispatch log unchanged). -/
theorem c8_discard_on_no_change (s : ObsState)
    (htask : s.task_panel_active = false) (hedit : s.edit_mode_active = false)
    (hnoch : s.changes_during_task = false) :
    (∀ s' : ObsState, (enter_edit_mode s').changes_during_task = false
      ∧ (enter_task_panel s').changes_during_task = false)
    ∧ (∀ now, (check_edit_completion now s).recompute_queue = []
        ∧ (check_edit_completion now s).changed_properties = []
        ∧ (check_edit_completion now s).recompute_deadline = s.recompute_deadline
        ∧ (check_edit_completion now s).acceptLog = s.acceptLog
        ∧ (check_edit_completion now s).processedLog = s.processedLog)
    ∧ (∀ now, (check_task_completion now s).recompute_queue = []
        ∧ (check_task_completion now s).changed_properties = []
        ∧ (check_task_completion now s).recompute_deadline = s.recompute_deadline
        ∧ (check_task_completion now s).acceptLog = s.acceptLog
        ∧ (check_task_completion now s).processedLog = s.processedLog) := by
  refine ⟨fun s' => ⟨rfl, rfl⟩, ?_, ?_⟩
  · intro now
    unfold check_edit_completion
    rw [if_neg (by simp [htask]), if_neg (by simp [hnoch])]
    exact ⟨rfl, rfl, rfl, rfl, rfl⟩
  · intro now
    unfold check_task_completion
    rw [if_neg (by simp [hedit]), if_neg (by simp [hnoch])]
    exact ⟨rfl, rfl, rfl, rfl, rfl⟩

/-- Claim C8, witness. -/
theorem c8_witness :
    (initialObsState.task_panel_active = false
      ∧ initialObsState.edit_mode_active = false
      ∧ initialObsState.changes_during_task = false)
    ∧ (check_edit_completion 9 initialObsState).recompute_queue = []
    ∧ (check_task_completion 9 initialObsState).changed_properties = [] :=
  ⟨⟨rfl, rfl, rfl⟩,
   ((c8_discard_on_no_change initialObsState rfl rfl rfl).2.1 9).1,
   ((c8_discard_on_no_change initialObsState rfl rfl rfl).2.2 9).2.1⟩

/-- Normal-mode acceptance path of `slotChangedObject` (lines 354-363) in
closed form: queue and change record updated, output pending, the
acceptance logged and the debounce timer armed. -/
theorem slotChanged_accept (now : Nat) (obj : FCObj) (prop : String) (s : ObsState)
    (ha : s.active = true) (hoa : s.observer_active = true)
    (hp : prop ∉ ignored_props)
    (hthr : ¬ (now - s.last_change_time < config.throttle_interval))
    (he : s.edit_mode_active = false) (ht : s.task_panel_active = false) :
    slotChangedObject now obj prop s =
      { s with
        recompute_queue := addToQueue s.recompute_queue obj,
        changed_properties := appendPropIfAbsent s.changed_properties obj.label prop,
        last_change_time := now,
        pending_output := true,
        acceptLog := s.acceptLog ++ [(obj.label, [prop])],
        recompute_deadline := some (now + config.recompute_delay) } := by
  unfold slotChangedObject start_recompute_timer
  rw [if_neg (by simp [ha, hoa, hp]), if_neg hthr, if_neg (by simp [he, ht])]
  by_cases hpo : s.pending_output = true <;> simp [hpo, he, ht]

/-- Claim C10: when a change for entity `X` is accepted in normal mode (so
`X` is pending), suspension is then entered, the debounce fires during the
window (aborting, queue intact) and the edit session exits with no change
accepted during the window, the exit handler clears `recompute_queue` and
`changed_properties` entirely — discarding the pre-suspension pending entry
for `X` — and nothing is ever dispatched to fingerprinting
(`processedLog` ends as it started). -/
theorem c10_presuspension_discard (s : ObsState) (X : FCObj) (p : String)
    (t1 now2 : Nat)
    (ha : s.active = true) (hoa : s.observer_active = true)
    (he : s.edit_mode_active = false) (ht : s.task_panel_active = false)
    (hp : p ∉ ignored_props)
    (hthr : ¬ (t1 - s.last_change_time < config.throttle_interval)) :
    (∃ o ∈ (slotChangedObject t1 X p s).recompute_queue, o.name = X.name)
    ∧ (fire_recompute_timer (enter_edit_mode (slotChangedObject t1 X p s))).recompute_queue
        = (slotChangedObject t1 X p s).recompute_queue
    ∧ (check_edit_completion now2
        { fire_recompute_timer (enter_edit_mode (slotChangedObject t1 X p s)) with
          edit_mode_active := false }).recompute_queue = []
    ∧ (check_edit_completion now2
        { fire_recompute_timer (enter_edit_mode (slotChangedObject t1 X p s)) with
          edit_mode_active := false }).changed_properties = []
    ∧ (check_edit_completion now2
        { fire_recompute_timer (enter_edit_mode (slotChangedObject t1 X p s)) with
          edit_mode_active := false }).processedLog = s.processedLog := by
  have hs1 := slotChanged_accept t1 X p s ha hoa hp hthr he ht
  rw [hs1]
  refine ⟨?_, ?_, ?_, ?_, ?_⟩
  all_goals
    simp [enter_edit_mode, fire_recompute_timer, on_recompute_timer,
      check_edit_completion, addToQueue_isEmpty, ht]
  exact addToQueue_mem _ _

/-- Claim C10, witness. -/
theorem c10_witness :
    (initialObsState.active = true
      ∧ ¬ (200 - initialObsState.last_change_time < config.throttle_interval))
    ∧ (check_edit_completion 700
        { fire_recompute_timer (enter_edit_mode (slotChangedObject 200
            (FCObj.mk "X" "X" none none none []) "Length" initialObsState)) with
          edit_mode_active := false }).recompute_queue = []
    ∧ (check_edit_completion 700
        { fire_recompute_timer (enter_edit_mode (slotChangedObject 200
            (FCObj.mk "X" "X" none none none []) "Length" initialObsState)) with
          edit_mode_active := false }).processedLog = initialObsState.processedLog :=
  ⟨⟨rfl, by decide⟩,
   (c10_presuspension_discard initialObsState (FCObj.mk "X" "X" none none none [])
     "Length" 200 700 rfl rfl rfl rfl (by decide) (by decide)).2.2.1,
   (c10_presuspension_discard initialObsState (FCObj.mk "X" "X" none none none [])
     "Length" 200 700 rfl rfl rfl rfl (by decide) (by decide)).2.2.2.2⟩

/-- Membership in a fold of Python set-insertions. -/
theorem mem_foldl_insertIfAbsent :
    ∀ (l acc : List String) (q : String),
      q ∈ l.foldl insertIfAbsent acc ↔ q ∈ acc ∨ q ∈ l := by
  intro l
  induction l with
  | nil => simp
  | cons p l ih =>
    intro acc q
    rw [List.foldl_cons, ih]
    unfold insertIfAbsent
    split
    · rename_i hmem
      constructor
      · rintro (h | h)
        · exact Or.inl h
        · exact Or.inr (List.mem_cons_of_mem _ h)
      · rintro (h | h)
        · exact Or.inl h
        · rcases List.mem_cons.mp h with h | h
          · exact Or.inl (h ▸ hmem)
          · exact Or.inr h
    · constructor
      · rintro (h | h)
        · rcases List.mem_append.mp h with h | h
          · exact Or.inl h
          · simp at h
            exact Or.inr (List.mem_cons.mpr (Or.inl h))
        · exact Or.inr (List.mem_cons_of_mem _ h)
      · rintro (h | h)
        · exact Or.inl (List.mem_append_left _ h)
        · rcases List.mem_cons.mp h with h | h
          · exact Or.inl (List.mem_append_right _ (by simp [h]))
          · exact Or.inr h

/-- A throttled event for an entity whose buffer entry already exists merges
the property into the entry and re-arms the throttle timer from the event's
time; nothing else changes. -/
theorem burst_step (s : ObsState) (X : FCObj) (ps : List String) (t t' : Nat) (p : String)
    (ha : s.active = true) (hoa : s.observer_active = true)
    (hp : p ∉ ignored_props)
    (hthr : t' - s.last_change_time < config.throttle_interval) :
    slotChangedObject t' X p
      { s with throttle_queue := [(X.name, X, ps)],
               throttle_deadline := some (t + config.throttle_interval) }
    = { s with throttle_queue := [(X.name, X, insertIfAbsent ps p)],
               throttle_deadline := some (t' + config.throttle_interval) } := by
  unfold slotChangedObject queue_change
  rw [if_neg (by simp [ha, hoa, hp]), if_pos (by simpa using hthr)]
  simp [List.find?]

/-- The first throttled event of a burst creates the buffer entry and arms
the throttle timer. -/
theorem burst_first (s : ObsState) (X : FCObj) (t' : Nat) (p : String)
    (ha : s.active = true) (hoa : s.observer_active = true)
    (htq : s.throttle_queue = [])
    (hp : p ∉ ignored_props)
    (hthr : t' - s.last_change_time < config.throttle_interval) :
    slotChangedObject t' X p s
    = { s with throttle_queue := [(X.name, X, [p])],
               throttle_deadline := some (t' + config.throttle_interval) } := by
  unfold slotChangedObject queue_change
  rw [if_neg (by simp [ha, hoa, hp]), if_pos (by simpa using hthr)]
  rw [htq]
  simp [insertIfAbsent]

/-- Running a burst of all-throttled events over an armed single-entity
buffer merges all property names and leaves the deadline at the last
event's time plus `throttle_interval`. -/
theorem burst_fold (s : ObsState) (X : FCObj)
    (ha : s.active = true) (hoa : s.observer_active = true) :
    ∀ (evs : List (Nat × String)) (ps : List String) (t : Nat),
      (∀ e ∈ evs, e.2 ∉ ignored_props) →
      (∀ e ∈ evs, e.1 - s.last_change_time < config.throttle_interval) →
      runBurst X { s with throttle_queue := [(X.name, X, ps)], throttle_deadline := some (t + config.throttle_interval) } evs
      = { s with throttle_queue := [(X.name, X, (evs.map Prod.snd).foldl insertIfAbsent ps)], throttle_deadline := some (((evs.getLast?).map Prod.fst).getD t + config.throttle_interval) } := by
  intro evs
  induction evs with
  | nil =>
    intro ps t _ _
    simp [runBurst]
  | cons e evs ih =>
    intro ps t hp hthr
    unfold runBurst at ih ⊢
    rw [List.foldl_cons,
      burst_step s X ps t e.1 e.2 ha hoa (hp e (by simp)) (hthr e (by simp)),
      ih (insertIfAbsent ps e.2) e.1 (fun x hx => hp x (by simp [hx]))
        (fun x hx => hthr x (by simp [hx]))]
    cases evs with
    | nil => simp
    | cons e2 evs2 =>
      obtain ⟨x, hx⟩ : ∃ x, (e2 :: evs2).getLast? = some x :=
        ⟨_, List.getLast?_eq_getLast _ (by simp)⟩
      simp [hx]

/-- Firing the throttle timer over a single-entity buffer in normal mode
flushes it through the acceptance path exactly once: one logged acceptance
carrying the merged property set, entity queued, debounce armed, buffer
cleared. -/
theorem burst_flush (s : ObsState) (X : FCObj) (ps : List String) (t : Nat)
    (he : s.edit_mode_active = false) (ht : s.task_panel_active = false) :
    fire_throttle_timer
      { s with throttle_queue := [(X.name, X, ps)],
               throttle_deadline := some (t + config.throttle_interval) }
    = { s with
        recompute_queue := addToQueue s.recompute_queue X,
        changed_properties := ps.foldl
          (fun cp p => appendPropIfAbsent cp X.label p) s.changed_properties,
        pending_output := true,
        acceptLog := s.acceptLog ++ [(X.label, ps)],
        recompute_deadline := some (t + config.throttle_interval + config.recompute_delay),
        throttle_queue := [],
        throttle_deadline := none,
        last_change_time := t + config.throttle_interval } := by
  unfold fire_throttle_timer process_throttled_changes flush_one start_recompute_timer
  by_cases hpo : s.pending_output = true <;> simp [hpo, he, ht]

/-- Claim C6, counterexample.  The claim states that any burst of `M ≥ 1`
events for one entity with inter-event gaps below `throttleInterval`
produces exactly one accepted aggregation carrying the union of the
property sets.  But the throttle compares against the time of the last
*accepted* event (`self.last_change_time`, which queued events do not
advance): here the burst `(t=200, "Length"), (t=250, "Width")` has a gap of
`50 < 100`, yet its first event arrives `200 ≥ 100` after the last
acceptance and is accepted immediately; the second is buffered and flushed
separately.  Result: two accepted aggregations, `["Length"]` and
`["Width"]`, neither of them the union. -/
theorem c6_counterexample :
    250 - 200 < config.throttle_interval
    ∧ ¬ (200 - initialObsState.last_change_time < config.throttle_interval)
    ∧ (fire_throttle_timer (runBurst (FCObj.mk "X" "X" none none none [])
        initialObsState [(200, "Length"), (250, "Width")])).acceptLog
      = [("X", ["Length"]), ("X", ["Width"])] := by
  refine ⟨by decide, by decide, by decide⟩

/-- Claim C6, amended: for a burst of `M ≥ 1` change events for the same
entity in which *every* event arrives less than `throttleInterval` after
the aggregator's last accepted-change time (throttled events do not advance
that reference time, so closeness to the previous event of the burst is not
enough), each event is diverted into the per-entity buffer, merging its
property name, and re-arms the single-shot throttle timer to that event's
time plus `throttleInterval` — no acceptance, no queue/change-record
update, no debounce arming happens during the burst (applying the theorem
to any prefix of the burst gives the deadline after that prefix, so with
increasing event times the timer never fires inside the burst).  When the
timer then fires, the buffer is flushed through the normal acceptance path
exactly once: exactly one new acceptance is logged for the entity, carrying
exactly the union of all `M` property-name sets, the entity enters the
recompute queue, the debounce timer is armed and the buffer is cleared. -/
theorem c6_throttle_coalescing (s : ObsState) (X : FCObj)
    (events : List (Nat × String)) (hne : events ≠ [])
    (ha : s.active = true) (hoa : s.observer_active = true)
    (he : s.edit_mode_active = false) (ht : s.task_panel_active = false)
    (htq : s.throttle_queue = [])
    (hp : ∀ e ∈ events, e.2 ∉ ignored_props)
    (hthr : ∀ e ∈ events, e.1 - s.last_change_time < config.throttle_interval) :
    (runBurst X s events).acceptLog = s.acceptLog
    ∧ (runBurst X s events).recompute_queue = s.recompute_queue
    ∧ (runBurst X s events).changed_properties = s.changed_properties
    ∧ (runBurst X s events).recompute_deadline = s.recompute_deadline
    ∧ (runBurst X s events).throttle_deadline
        = (events.getLast?).map (fun e => e.1 + config.throttle_interval)
    ∧ (∃ ps, (fire_throttle_timer (runBurst X s events)).acceptLog
          = s.acceptLog ++ [(X.label, ps)]
        ∧ ∀ q, (q ∈ ps ↔ q ∈ events.map Prod.snd))
    ∧ (fire_throttle_timer (runBurst X s events)).throttle_queue = []
    ∧ (∃ o ∈ (fire_throttle_timer (runBurst X s events)).recompute_queue, o.name = X.name)
    ∧ (fire_throttle_timer (runBurst X s events)).recompute_deadline
        = (events.getLast?).map
            (fun e => e.1 + config.throttle_interval + config.recompute_delay) := by
  obtain ⟨ev, evs, rfl⟩ := List.exists_cons_of_ne_nil hne
  have h1 : runBurst X s (ev :: evs)
      = { s with throttle_queue := [(X.name, X, (evs.map Prod.snd).foldl insertIfAbsent [ev.2])], throttle_deadline := some (((evs.getLast?).map Prod.fst).getD ev.1 + config.throttle_interval) } := by
    show (ev :: evs).foldl (fun st tp => slotChangedObject tp.1 X tp.2 st) s = _
    rw [List.foldl_cons,
      burst_first s X ev.1 ev.2 ha hoa htq (hp ev (by simp)) (hthr ev (by simp))]
    exact burst_fold s X ha hoa evs [ev.2] ev.1
      (fun x hx => hp x (by simp [hx])) (fun x hx => hthr x (by simp [hx]))
  have hlast : ∀ (f : Nat → Nat),
      some (f (((evs.getLast?).map Prod.fst).getD ev.1))
        = ((ev :: evs).getLast?).map (fun e => f e.1) := by
    intro f
    cases evs with
    | nil => simp
    | cons e2 evs2 =>
      obtain ⟨x, hx⟩ : ∃ x, (e2 :: evs2).getLast? = some x :=
        ⟨_, List.getLast?_eq_getLast _ (by simp)⟩
      simp [hx]
  have h2 := burst_flush s X ((evs.map Prod.snd).foldl insertIfAbsent [ev.2])
    (((evs.getLast?).map Prod.fst).getD ev.1) he ht
  refine ⟨by rw [h1], by rw [h1], by rw [h1], by rw [h1],
    by rw [h1]; exact hlast (fun x => x + config.throttle_interval), ?_, ?_, ?_, ?_⟩
  · refine ⟨(evs.map Prod.snd).foldl insertIfAbsent [ev.2], by rw [h1, h2], ?_⟩
    intro q
    rw [mem_foldl_insertIfAbsent]
    simp
  · rw [h1, h2]
  · rw [h1, h2]
    exact addToQueue_mem _ _
  · rw [h1, h2]
    exact hlast (fun x => x + config.throttle_interval + config.recompute_delay)

/-- Claim C6, witness: a two-event burst fully inside the throttle window. -/
theorem c6_witness :
    (([(10, "Length"), (50, "Width")] : List (Nat × String)) ≠ []
      ∧ 10 - initialObsState.last_change_time < config.throttle_interval
      ∧ 50 - initialObsState.last_change_time < config.throttle_interval)
    ∧ (runBurst (FCObj.mk "X" "X" none none none []) initialObsState
        [(10, "Length"), (50, "Width")]).throttle_deadline = some 150
    ∧ (fire_throttle_timer (runBurst (FCObj.mk "X" "X" none none none [])
        initialObsState [(10, "Length"), (50, "Width")])).throttle_queue = [] :=
  ⟨⟨by decide, by decide, by decide⟩,
   ((c6_throttle_coalescing initialObsState (FCObj.mk "X" "X" none none none [])
      [(10, "Length"), (50, "Width")] (by decide) rfl rfl rfl rfl rfl
      (by decide) (by decide)).2.2.2.2.1).trans (by decide),
   (c6_throttle_coalescing initialObsState (FCObj.mk "X" "X" none none none [])
      [(10, "Length"), (50, "Width")] (by decide) rfl rfl rfl rfl rfl
      (by decide) (by decide)).2.2.2.2.2.2.1⟩

theorem string_eq_of_data_eq {a b : String} (h : a.data = b.data) : a = b := by
  cases a
  cases b
  exact congrArg String.mk h

theorem pyEndsWith_mkEntry (t : Nat) (h h' : String)
    (hlen : h.data.length = h'.data.length) :
    pyEndsWith (mkHistoryEntry t h') h = true ↔ h = h' := by
  unfold pyEndsWith mkHistoryEntry
  rw [List.isSuffixOf_iff_suffix]
  constructor
  · intro hs
    obtain ⟨pre, hpre⟩ := hs
    have hd : pre ++ h.data = (toString t ++ ": ").data ++ h'.data := by
      simpa [List.append_assoc] using hpre
    have hl : pre.length = ((toString t ++ ": ").data).length := by
      have := congrArg List.length hd
      simp only [List.length_append] at this
      omega
    exact string_eq_of_data_eq (List.append_inj_right hd hl)
  · intro he
    subst he
    refine ⟨(toString t ++ ": ").data, ?_⟩
    simp [List.append_assoc]

theorem mkEntry_inj (t t' : Nat) (h h' : String)
    (hlen : h.data.length = h'.data.length)
    (he : mkHistoryEntry t h = mkHistoryEntry t' h') : h = h' := by
  unfold mkHistoryEntry at he
  have hd : (toString t ++ ": ").data ++ h.data = (toString t' ++ ": ").data ++ h'.data := by
    have := congrArg String.data he
    simpa [List.append_assoc] using this
  have hl : ((toString t ++ ": ").data).length = ((toString t' ++ ": ").data).length := by
    have := congrArg List.length hd
    simp only [List.length_append] at this
    omega
  exact string_eq_of_data_eq (List.append_inj_right hd hl)

theorem rtake_rtake {α : Type} (l : List α) (n m : Nat) :
    (l.rtake n).rtake m = l.rtake (min m n) := by
  simp [List.rtake_eq_reverse_take_reverse, List.take_take]

theorem map_rtake {α β : Type} (f : α → β) (l : List α) (n : Nat) :
    (l.rtake n).map f = (l.map f).rtake n := by
  simp [List.rtake, List.map_drop]

theorem length_rtake_le {α : Type} (l : List α) (n : Nat) :
    (l.rtake n).length ≤ n := by
  simp only [List.rtake, List.length_drop]
  omega

theorem rtake_concat_cap {α : Type} (l : List α) (x : α) :
    ((l.rtake 5) ++ [x]).rtake 5 = (l ++ [x]).rtake 5 := by
  rw [show (5 : Nat) = 4 + 1 from rfl, List.rtake_concat_succ, List.rtake_concat_succ,
    rtake_rtake]
  norm_num

theorem getLast?_rtake_succ {α : Type} (l : List α) (n : Nat) :
    (l.rtake (n + 1)).getLast? = l.getLast? := by
  rw [List.rtake_eq_reverse_take_reverse, List.getLast?_reverse,
    List.getLast?_eq_head?_reverse]
  cases l.reverse <;> simp

theorem process_feature_skip (f : FCObj → Except String String) (now : Nat)
    (obj : FCObj) (st : EngineState) (ct : Nat) (ch : String)
    (hl : st.feature_cache.lookup obj.name = some (ct, ch))
    (hle : obj.timeStamp.getD 0 ≤ ct) :
    process_feature f now obj st = (false, obj, st) := by
  simp [process_feature, hl, hle]

theorem process_feature_error (f : FCObj → Except String String) (now : Nat)
    (obj : FCObj) (st : EngineState) (e : String) (hf : f obj = .error e)
    (hnoskip : ∀ ct ch, st.feature_cache.lookup obj.name = some (ct, ch) →
      ct < obj.timeStamp.getD 0) :
    process_feature f now obj st =
      (false, obj, { st with warnings :=
        st.warnings ++ ["Fehler bei " ++ obj.name ++ ": " ++ e] }) := by
  unfold process_feature
  rcases hl : st.feature_cache.lookup obj.name with _ | ⟨ct, ch⟩
  · simp only [hl, hf, if_neg (by simp : ¬ (false = true))]
  · have hlt : ¬ (obj.timeStamp.getD 0 ≤ ct) := Nat.not_le.mpr (hnoskip ct ch hl)
    simp only [hl, hf, hlt, decide_eq_false, if_false, Bool.false_eq_true, if_neg]
    simp

theorem process_feature_hashEq (f : FCObj → Except String String) (now : Nat)
    (obj : FCObj) (st : EngineState) (h : String) (l : List String)
    (hf : f obj = .ok h)
    (hnoskip : ∀ ct ch, st.feature_cache.lookup obj.name = some (ct, ch) →
      ct < obj.timeStamp.getD 0)
    (hhist : obj.featureHistory = some l)
    (hhash : obj.featureHash = some h) :
    process_feature f now obj st =
      (false, obj, { st with
        feature_cache := pyDictSet st.feature_cache obj.name (now, h),
        recomputes := st.recomputes + 1 }) := by
  unfold process_feature
  rcases hl : st.feature_cache.lookup obj.name with _ | ⟨ct, ch⟩
  · simp [hl, hf, hhist, hhash]
  · have hlt : ¬ (obj.timeStamp.getD 0 ≤ ct) := Nat.not_le.mpr (hnoskip ct ch hl)
    simp [hl, hf, hhist, hhash, hlt]

theorem process_feature_fresh (f : FCObj → Except String String) (now : Nat)
    (obj : FCObj) (st : EngineState) (h : String)
    (hf : f obj = .ok h)
    (hnoskip : ∀ ct ch, st.feature_cache.lookup obj.name = some (ct, ch) →
      ct < obj.timeStamp.getD 0)
    (hhist : obj.featureHistory = none)
    (hhash : obj.featureHash = none)
    (hne : h ≠ "") :
    process_feature f now obj st =
      (true,
       { obj with featureHistory := some [mkHistoryEntry now h],
                  featureHash := some h },
       { st with
         feature_cache := pyDictSet st.feature_cache obj.name (now, h),
         dependency_cache := st.dependency_cache.erase obj.name,
         recomputes := st.recomputes + 1 }) := by
  unfold process_feature
  rcases hl : st.feature_cache.lookup obj.name with _ | ⟨ct, ch⟩
  · simp [hl, hf, hhist, hhash, Ne.symm hne, List.rtake, config]
  · have hlt : ¬ (obj.timeStamp.getD 0 ≤ ct) := Nat.not_le.mpr (hnoskip ct ch hl)
    simp [hl, hf, hhist, hhash, hlt, Ne.symm hne, List.rtake, config]

theorem process_feature_append (f : FCObj → Except String String) (now : Nat)
    (obj : FCObj) (st : EngineState) (h h'' : String) (l : List String)
    (hf : f obj = .ok h)
    (hnoskip : ∀ ct ch, st.feature_cache.lookup obj.name = some (ct, ch) →
      ct < obj.timeStamp.getD 0)
    (hhist : obj.featureHistory = some l)
    (hhash : obj.featureHash = some h'')
    (hne : h'' ≠ h)
    (hlast : ∀ e, l.getLast? = some e → pyEndsWith e h = false) :
    process_feature f now obj st =
      (true,
       { obj with
         featureHistory := some ((l ++ [mkHistoryEntry now h]).rtake config.history_length),
         featureHash := some h },
       { st with
         feature_cache := pyDictSet st.feature_cache obj.name (now, h),
         dependency_cache := st.dependency_cache.erase obj.name,
         recomputes := st.recomputes + 1 }) := by
  unfold process_feature
  rcases hl : st.feature_cache.lookup obj.name with _ | ⟨ct, ch⟩
  · rcases hgl : l.getLast? with _ | e
    · simp [hl, hf, hhist, hhash, hne, hgl]
    · simp [hl, hf, hhist, hhash, hne, hgl, hlast e hgl]
  · have hlt : ¬ (obj.timeStamp.getD 0 ≤ ct) := Nat.not_le.mpr (hnoskip ct ch hl)
    rcases hgl : l.getLast? with _ | e
    · simp [hl, hf, hhist, hhash, hne, hgl, hlt]
    · simp [hl, hf, hhist, hhash, hne, hgl, hlt, hlast e hgl]

theorem step_sim (name : String) (p : FCObj × EngineState) (a : AbsState) (s : FStep)
    (hrel : Rel name p a) (h32 : hashLenOk s = true) :
    Rel name (runStep p s) (absStep a s) := by
  obtain ⟨r1, r2, r3, r4, r5, r6, r7, r8⟩ := hrel
  have hpy : ∀ v : Nat × String,
      pyDictSet p.2.feature_cache name v = [(name, v)] := by
    intro v
    rw [r2]
    cases a.cache with
    | none => simp [pyDictSet]
    | some c => simp [pyDictSet, List.find?]
  have main : (∀ ct' ch', p.2.feature_cache.lookup name = some (ct', ch') →
        ct' < s.ts.getD 0) →
      absStep a s = (match s.res with
        | .error _ => a
        | .ok h =>
          if a.hash = some h then { a with cache := some (s.now, h) }
          else ⟨some (s.now, h), some h, a.changes ++ [(s.now, h)]⟩) →
      Rel name (runStep p s) (absStep a s) := by
    intro hnoskip habs
    have hnoskip' : ∀ ct' ch',
        p.2.feature_cache.lookup ({ p.1 with timeStamp := s.ts } : FCObj).name
          = some (ct', ch') →
        ct' < ({ p.1 with timeStamp := s.ts } : FCObj).timeStamp.getD 0 := by
      intro ct' ch' hl
      exact hnoskip ct' ch' (by rw [← r1]; exact hl)
    rcases hr : s.res with e | h
    · -- exception: both sides unchanged
      have habs2 : absStep a s = a := by rw [habs, hr]
      rw [habs2]
      unfold runStep
      rw [process_feature_error (fun _ => s.res) s.now _ p.2 e hr hnoskip']
      exact ⟨r1, r2, r3, r4, r5, r6, r7, r8⟩
    · have hlen : h.data.length = 32 := by
        unfold hashLenOk at h32
        rw [hr] at h32
        simpa using h32
      rcases hh : a.hash with _ | h''
      · -- fresh entity: first genuine change
        have hch : a.changes = [] := r5.mp hh
        have hne : h ≠ "" := by
          intro he
          rw [he] at hlen
          simp at hlen
        have hhist : ({ p.1 with timeStamp := s.ts } : FCObj).featureHistory = none := by
          show p.1.featureHistory = none
          rw [r4, if_pos hch]
        have hhash : ({ p.1 with timeStamp := s.ts } : FCObj).featureHash = none := by
          show p.1.featureHash = none
          rw [r3, hh]
        have habs2 : absStep a s
            = ⟨some (s.now, h), some h, a.changes ++ [(s.now, h)]⟩ := by
          rw [habs, hr]
          simp [hh]
        rw [habs2, hch]
        unfold runStep
        rw [process_feature_fresh (fun _ => s.res) s.now _ p.2 h hr hnoskip' hhist hhash hne]
        refine ⟨r1, ?_, ?_, ?_, ?_, ?_, ?_, ?_⟩
        · show pyDictSet p.2.feature_cache ({ p.1 with timeStamp := s.ts} : FCObj).name _ = _
          rw [show ({ p.1 with timeStamp := s.ts} : FCObj).name = name from r1, hpy]
        · simp
        · simp [List.rtake, config]
        · simp
        · simp
        · intro q hq
          simp at hq
          rw [hq]
          exact hlen
        · simp
      · -- stored hash present
        have hchne : a.changes ≠ [] := by
          intro hce
          rw [r5.mpr hce] at hh
          cases hh
        have hhist : ({ p.1 with timeStamp := s.ts } : FCObj).featureHistory
            = some ((a.changes.rtake config.history_length).map
                (fun q => mkHistoryEntry q.1 q.2)) := by
          show p.1.featureHistory = _
          rw [r4, if_neg hchne]
        by_cases hsame : h'' = h
        · -- recomputed hash equals the stored one: cache refresh only
          have habs2 : absStep a s = { a with cache := some (s.now, h) } := by
            rw [habs, hr]
            simp [hh, hsame]
          rw [habs2]
          unfold runStep
          rw [process_feature_hashEq (fun _ => s.res) s.now _ p.2 h _ hr hnoskip' hhist
            (by show p.1.featureHash = some h; rw [r3, hh, hsame])]
          refine ⟨r1, ?_, r3, r4, r5, r6, r7, r8⟩
          show pyDictSet p.2.feature_cache ({ p.1 with timeStamp := s.ts} : FCObj).name _ = _
          rw [show ({ p.1 with timeStamp := s.ts} : FCObj).name = name from r1, hpy]
        · -- genuine change: append to history
          obtain ⟨tl, hl''⟩ : ∃ tl, a.changes.getLast? = some (tl, h'') := by
            have h6 := r6 h'' hh
            rcases hgl : a.changes.getLast? with _ | q
            · rw [hgl] at h6
              cases h6
            · rw [hgl] at h6
              simp at h6
              refine ⟨q.1, ?_⟩
              rw [← h6]
          have hmem : (tl, h'') ∈ a.changes :=
            List.mem_of_mem_getLast? (by rw [hl'']; exact rfl)
          have hlen'' : (h'' : String).data.length = 32 := r7 (tl, h'') hmem
          have hlastF : ∀ e,
              ((a.changes.rtake config.history_length).map
                (fun q => mkHistoryEntry q.1 q.2)).getLast? = some e →
              pyEndsWith e h = false := by
            intro e he
            rw [List.getLast?_map] at he
            rw [show config.history_length = 4 + 1 from rfl] at he
            rw [getLast?_rtake_succ] at he
            rw [hl''] at he
            simp at he
            rw [← he]
            have : ¬ (pyEndsWith (mkHistoryEntry tl h'') h = true) := by
              rw [pyEndsWith_mkEntry tl h h'' (hlen.trans hlen''.symm)]
              intro hcon
              exact hsame hcon.symm
            exact Bool.not_eq_true _ ▸ (Bool.eq_false_iff.mpr (fun hb => this hb))
          unfold runStep
          rw [process_feature_append (fun _ => s.res) s.now _ p.2 h h'' _ hr hnoskip' hhist
            (by show p.1.featureHash = some h''; rw [r3, hh]) hsame hlastF]
          have hcond : ¬ (a.hash = some h) := by
            rw [hh]
            intro hcon
            exact hsame (by injection hcon)
          have habs2 : absStep a s
              = ⟨some (s.now, h), some h, a.changes ++ [(s.now, h)]⟩ := by
            rw [habs, hr]
            simp [hcond]
          rw [habs2]
          have hhistEq :
              (((a.changes.rtake config.history_length).map
                  (fun q => mkHistoryEntry q.1 q.2))
                ++ [mkHistoryEntry s.now h]).rtake config.history_length
              = ((a.changes ++ [(s.now, h)]).rtake config.history_length).map
                  (fun q => mkHistoryEntry q.1 q.2) := by
            have h1 : ((a.changes.rtake (5 : Nat)).map
                  (fun q => mkHistoryEntry q.1 q.2)) ++ [mkHistoryEntry s.now h]
                = ((a.changes.rtake (5 : Nat)) ++ [(s.now, h)]).map
                  (fun q => mkHistoryEntry q.1 q.2) := by
              simp
            have hc5 : config.history_length = 5 := rfl
            rw [hc5, h1, ← map_rtake, rtake_concat_cap]
          refine ⟨r1, ?_, ?_, ?_, ?_, ?_, ?_, ?_⟩
          · show pyDictSet p.2.feature_cache ({ p.1 with timeStamp := s.ts} : FCObj).name _ = _
            rw [show ({ p.1 with timeStamp := s.ts} : FCObj).name = name from r1, hpy]
          · rfl
          · show some _ = if (a.changes ++ [(s.now, h)]) = [] then none else _
            rw [if_neg (by simp)]
            rw [hhistEq]
          · simp
          · intro hq hsome
            rw [List.getLast?_concat]
            simpa using hsome
          · intro q hq
            rcases List.mem_append.mp hq with hq' | hq'
            · exact r7 q hq'
            · simp at hq'
              rw [hq']
              exact hlen
          · refine List.Chain'.append r8 (by simp) ?_
            intro x hx y hy
            rw [hl''] at hx
            simp only [Option.mem_def, Option.some.injEq, List.head?_cons] at hx hy
            subst hx
            subst hy
            simpa using hsame
  rcases hc : a.cache with _ | ⟨ct, ch⟩
  · refine main ?_ ?_
    · intro ct' ch' hl
      rw [r2, hc] at hl
      simp at hl
    · unfold absStep
      rw [hc]
      rfl
  · by_cases hsk : s.ts.getD 0 ≤ ct
    · have hlook : p.2.feature_cache.lookup
          ({ p.1 with timeStamp := s.ts } : FCObj).name = some (ct, ch) := by
        rw [show ({ p.1 with timeStamp := s.ts} : FCObj).name = name from r1, r2, hc]
        simp [List.lookup]
      have habs : absStep a s = a := by
        unfold absStep
        rw [hc]
        simp [hsk]
      rw [habs]
      unfold runStep
      rw [process_feature_skip (fun _ => s.res) s.now _ p.2 ct ch hlook (by simpa using hsk)]
      exact ⟨r1, r2, r3, r4, r5, r6, r7, r8⟩
    · refine main ?_ ?_
      · intro ct' ch' hl
        rw [r2, hc] at hl
        simp [List.lookup] at hl
        rw [← hl.1]
        omega
      · unfold absStep
        rw [hc]
        simp [hsk]


/-- Claim C3, counterexample.  The claim states that when the newest
computed hash equals the hash recorded in the most recent history entry,
that entry is refreshed in place (its timestamp updated).  In the code this
situation takes the `else` branch of line 167 (the computed hash also
equals the stored `FeatureHash`), which does not touch the history at all:
after a second recomputation of the same hash at time 20 (a real
recomputation, not a fast-path skip — the recomputation counter reaches 2)
the single history entry still carries timestamp 10.  The in-place refresh
of line 174 is reachable only when the computed hash differs from
`FeatureHash` yet equals the last entry's hash, which cannot arise in a
fresh run. -/
theorem c3_counterexample :
    (runSteps (FCObj.mk "A" "A" none none none [], EngineState.mk [] [] [] 0)
      [FStep.mk 10 (some 5) (.ok "aaaaaaaaaaaaaaaaaaaaaaaaaaaaaaaa"), FStep.mk 20 (some 15) (.ok "aaaaaaaaaaaaaaaaaaaaaaaaaaaaaaaa")]).1.featureHistory
      = some [mkHistoryEntry 10 "aaaaaaaaaaaaaaaaaaaaaaaaaaaaaaaa"]
    ∧ (runSteps (FCObj.mk "A" "A" none none none [], EngineState.mk [] [] [] 0)
      [FStep.mk 10 (some 5) (.ok "aaaaaaaaaaaaaaaaaaaaaaaaaaaaaaaa"), FStep.mk 20 (some 15) (.ok "aaaaaaaaaaaaaaaaaaaaaaaaaaaaaaaa")]).2.recomputes = 2
    ∧ mkHistoryEntry 10 "aaaaaaaaaaaaaaaaaaaaaaaaaaaaaaaa" ≠ mkHistoryEntry 20 "aaaaaaaaaaaaaaaaaaaaaaaaaaaaaaaa" := by
  refine ⟨by decide, by decide, by decide⟩

theorem run_sim (name : String) :
    ∀ (steps : List FStep) (p : FCObj × EngineState) (a : AbsState),
      Rel name p a → (∀ s ∈ steps, hashLenOk s = true) →
      Rel name (runSteps p steps) (steps.foldl absStep a) := by
  intro steps
  induction steps with
  | nil => exact fun p a h _ => h
  | cons s steps ih =>
    intro p a h h32
    exact ih (runStep p s) (absStep a s) (step_sim name p a s h (h32 s (by simp)))
      (fun x hx => h32 x (by simp [hx]))

theorem chain_mkEntry :
    ∀ (hs : List (Nat × String)), (∀ q ∈ hs, (q.2 : String).data.length = 32) →
      List.Chain' (fun q r : Nat × String => q.2 ≠ r.2) hs →
      List.Chain' (fun a b : String => a ≠ b)
        (hs.map (fun q => mkHistoryEntry q.1 q.2)) := by
  intro hs
  induction hs with
  | nil => simp
  | cons q hs ih =>
    intro hlen hch
    cases hs with
    | nil => simp
    | cons r hs' =>
      rw [List.map_cons, List.map_cons]
      rw [List.chain'_cons] at hch
      rw [List.chain'_cons]
      refine ⟨?_, ?_⟩
      · intro hcon
        exact hch.1 (mkEntry_inj q.1 r.1 q.2 r.2
          ((hlen q (by simp)).trans (hlen r (by simp)).symm) hcon)
      · have := ih (fun x hx => hlen x (by simp [hx])) hch.2
        rw [List.map_cons] at this
        exact this

/-- Claim C3, amended: for every sequence of `process_feature` calls on one
entity starting fresh (no custom properties, empty cache), with every
computed hash a 32-character digest as MD5 yields: the persisted
`FeatureHistory` equals exactly the `historyLength` most recent genuine
hash changes, in chronological order, rendered as `"{timestamp}: {hash}"`
entries (a genuine change being a recomputation whose hash differs from
the stored `FeatureHash`); hence its length never exceeds `historyLength`,
it never contains two consecutive entries recording the same hash, and
after N > `historyLength` genuine changes it holds exactly the
`historyLength` most recent ones.  A call whose computed hash matches the
stored one leaves the history untouched (rather than refreshing the most
recent entry in place, as the unamended claim stated). -/
theorem c3_history_invariants (name label : String) (out : List String)
    (steps : List FStep) (h32 : ∀ s ∈ steps, hashLenOk s = true) :
    ((runSteps (FCObj.mk name label none none none out,
        EngineState.mk [] [] [] 0) steps).1.featureHistory.getD [])
      = ((genuineChanges steps).rtake config.history_length).map
          (fun q => mkHistoryEntry q.1 q.2)
    ∧ ((runSteps (FCObj.mk name label none none none out,
        EngineState.mk [] [] [] 0) steps).1.featureHistory.getD []).length
        ≤ config.history_length
    ∧ List.Chain' (fun q r : Nat × String => q.2 ≠ r.2) (genuineChanges steps)
    ∧ List.Chain' (fun a b : String => a ≠ b)
        ((runSteps (FCObj.mk name label none none none out,
          EngineState.mk [] [] [] 0) steps).1.featureHistory.getD []) := by
  have h0 : Rel name (FCObj.mk name label none none none out,
      EngineState.mk [] [] [] 0) ⟨none, none, []⟩ :=
    ⟨rfl, rfl, rfl, by simp, by simp, by simp, by simp, by simp⟩
  obtain ⟨q1, q2, q3, q4, q5, q6, q7, q8⟩ := run_sim name steps _ _ h0 h32
  have hgc : (steps.foldl absStep ⟨none, none, []⟩).changes = genuineChanges steps := rfl
  rw [hgc] at q4 q7 q8
  have hmem : ∀ q ∈ (genuineChanges steps).rtake config.history_length,
      (q.2 : String).data.length = 32 := by
    intro q hq
    refine q7 q ?_
    have hsub : List.Sublist ((genuineChanges steps).rtake config.history_length) (genuineChanges steps) :=
      List.drop_sublist _ _
    exact hsub.subset hq
  have hchr : List.Chain' (fun q r : Nat × String => q.2 ≠ r.2)
      ((genuineChanges steps).rtake config.history_length) := by
    show List.Chain' (fun q r : Nat × String => q.2 ≠ r.2)
      ((genuineChanges steps).drop ((genuineChanges steps).length - config.history_length))
    have h := q8
    rw [← List.take_append_drop
      ((genuineChanges steps).length - config.history_length)
      (genuineChanges steps)] at h
    exact (List.chain'_append.1 h).2.1
  by_cases hul : genuineChanges steps = []
  · rw [q4, if_pos hul, hul]
    refine ⟨by simp, by simp, by simp [hul], by simp⟩
  · rw [q4, if_neg hul]
    refine ⟨by simp, ?_, q8, ?_⟩
    · simp only [Option.getD_some, List.length_map]
      exact length_rtake_le _ _
    · simp only [Option.getD_some]
      exact chain_mkEntry _ hmem hchr


/-- Claim C3, witness: three genuine changes on a fresh entity. -/
theorem c3_witness :
    (∀ s ∈ [FStep.mk 10 (some 5) (.ok "aaaaaaaaaaaaaaaaaaaaaaaaaaaaaaaa"), FStep.mk 20 (some 15) (.ok "bbbbbbbbbbbbbbbbbbbbbbbbbbbbbbbb"),
        FStep.mk 30 (some 25) (.ok "cccccccccccccccccccccccccccccccc")], hashLenOk s = true)
    ∧ ((runSteps (FCObj.mk "A" "A" none none none [], EngineState.mk [] [] [] 0)
        [FStep.mk 10 (some 5) (.ok "aaaaaaaaaaaaaaaaaaaaaaaaaaaaaaaa"), FStep.mk 20 (some 15) (.ok "bbbbbbbbbbbbbbbbbbbbbbbbbbbbbbbb"),
         FStep.mk 30 (some 25) (.ok "cccccccccccccccccccccccccccccccc")]).1.featureHistory.getD [])
      = ((genuineChanges [FStep.mk 10 (some 5) (.ok "aaaaaaaaaaaaaaaaaaaaaaaaaaaaaaaa"),
          FStep.mk 20 (some 15) (.ok "bbbbbbbbbbbbbbbbbbbbbbbbbbbbbbbb"),
          FStep.mk 30 (some 25) (.ok "cccccccccccccccccccccccccccccccc")]).rtake config.history_length).map
          (fun q => mkHistoryEntry q.1 q.2)
    ∧ genuineChanges [FStep.mk 10 (some 5) (.ok "aaaaaaaaaaaaaaaaaaaaaaaaaaaaaaaa"),
        FStep.mk 20 (some 15) (.ok "bbbbbbbbbbbbbbbbbbbbbbbbbbbbbbbb"), FStep.mk 30 (some 25) (.ok "cccccccccccccccccccccccccccccccc")]
      = [(10, "aaaaaaaaaaaaaaaaaaaaaaaaaaaaaaaa"), (20, "bbbbbbbbbbbbbbbbbbbbbbbbbbbbbbbb"), (30, "cccccccccccccccccccccccccccccccc")] :=
  ⟨by decide,
   (c3_history_invariants "A" "A" []
     [FStep.mk 10 (some 5) (.ok "aaaaaaaaaaaaaaaaaaaaaaaaaaaaaaaa"), FStep.mk 20 (some 15) (.ok "bbbbbbbbbbbbbbbbbbbbbbbbbbbbbbbb"),
      FStep.mk 30 (some 25) (.ok "cccccccccccccccccccccccccccccccc")] (by decide)).1,
   by decide⟩

theorem graphGet_subset (objects : List FCObj) (n c : String)
    (hc : c ∈ graphGet (buildGraph objects) n) : c ∈ namesOf objects := by
  unfold graphGet buildGraph at hc
  rcases hf : (objects.map (fun o =>
      (o.name, o.outList.filter (fun c => (namesOf objects).contains c)))).find?
      (fun p => p.1 == n) with _ | p
  · rw [hf] at hc
    exact absurd hc (by simp)
  · rw [hf] at hc
    simp only [Option.map_some', Option.getD_some] at hc
    have hp := List.mem_of_find?_eq_some hf
    simp only [List.mem_map] at hp
    obtain ⟨o, _, rfl⟩ := hp
    simp only [List.mem_filter] at hc
    simpa using hc.2

theorem graphGet_key (objects : List FCObj) (n c : String)
    (hc : c ∈ graphGet (buildGraph objects) n) : n ∈ namesOf objects := by
  unfold graphGet buildGraph at hc
  rcases hf : (objects.map (fun o =>
      (o.name, o.outList.filter (fun c => (namesOf objects).contains c)))).find?
      (fun p => p.1 == n) with _ | p
  · rw [hf] at hc
    exact absurd hc (by simp)
  · have hp := List.mem_of_find?_eq_some hf
    have hpn := List.find?_some hf
    simp only [List.mem_map] at hp
    obtain ⟨o, ho, rfl⟩ := hp
    simp only [beq_iff_eq] at hpn
    rw [← hpn]
    exact List.mem_map_of_mem _ ho

theorem find?_map_name (objects : List FCObj) (g : FCObj → List String)
    (hnd : (namesOf objects).Nodup) (o : FCObj) (ho : o ∈ objects) :
    (objects.map (fun o' => (o'.name, g o'))).find? (fun p => p.1 == o.name)
      = some (o.name, g o) := by
  induction objects with
  | nil => cases ho
  | cons o' os ih =>
    rcases List.mem_cons.mp ho with rfl | ho'
    · rw [List.map_cons, List.find?_cons_of_pos _ (by simp)]
    · have hne : o'.name ≠ o.name := by
        intro he
        have : o.name ∈ namesOf os := List.mem_map_of_mem _ ho'
        rw [← he] at this
        exact (List.nodup_cons.mp hnd).1 this
      rw [List.map_cons, List.find?_cons_of_neg _ (by simpa using hne)]
      exact ih (List.nodup_cons.mp hnd).2 ho'

theorem graphGet_of_mem (objects : List FCObj)
    (hnd : (namesOf objects).Nodup) (o : FCObj) (ho : o ∈ objects) :
    graphGet (buildGraph objects) o.name
      = o.outList.filter (fun c => (namesOf objects).contains c) := by
  unfold graphGet buildGraph
  rw [find?_map_name objects _ hnd o ho]
  simp

theorem find?_byName (objects : List FCObj) (n : String) (hn : n ∈ namesOf objects) :
    ∃ o, objects.find? (fun o => o.name == n) = some o ∧ o.name = n ∧ o ∈ objects := by
  obtain ⟨o0, ho0, hname⟩ := List.mem_map.mp hn
  have hex : ∃ x, x ∈ objects ∧ (fun o : FCObj => o.name == n) x = true :=
    ⟨o0, ho0, by simp [hname]⟩
  obtain ⟨o, ho⟩ := Option.isSome_iff_exists.mp (List.find?_isSome.mpr hex)
  exact ⟨o, ho, by simpa using List.find?_some ho,
    List.mem_of_find?_eq_some ho⟩

theorem sortedOk_append (g : List (String × List String)) (r : List FCObj) (x : FCObj)
    (hs : SortedOk g r) (hx : ∀ c ∈ graphGet g x.name, c ∈ namesOf r) :
    SortedOk g (r ++ [x]) := by
  intro l₁ o l₂ heq c hc
  rcases List.eq_nil_or_concat l₂ with rfl | ⟨l₂', b, rfl⟩
  · obtain ⟨h1, h2⟩ := List.append_inj' heq rfl
    obtain rfl : x = o := by simpa using h2
    rw [← h1]
    exact hx c hc
  · have heq' : r ++ [x] = (l₁ ++ o :: l₂') ++ [b] := by
      rw [heq]
      simp
    obtain ⟨h1, h2⟩ := List.append_inj' heq' rfl
    exact hs l₁ o l₂' h1 c hc

theorem visit_spec (objects : List FCObj) (rank : String → Nat)
    (hrk : ∀ n c, c ∈ graphGet (buildGraph objects) n → rank c < rank n) :
    ∀ (fuel : Nat) (node : String) (stack : List String)
      (st : List String × List FCObj),
      node ∈ namesOf objects →
      rank node < fuel →
      (∀ m ∈ stack, rank node < rank m) →
      VisitInv objects (buildGraph objects) stack st →
      VisitInv objects (buildGraph objects) stack
          (visit objects (buildGraph objects) fuel node st)
      ∧ (∀ v ∈ st.1, v ∈ (visit objects (buildGraph objects) fuel node st).1)
      ∧ (∃ Δ, (visit objects (buildGraph objects) fuel node st).2 = st.2 ++ Δ)
      ∧ node ∈ (visit objects (buildGraph objects) fuel node st).1
      ∧ (∀ v ∈ namesOf (visit objects (buildGraph objects) fuel node st).2,
          v ∈ namesOf st.2 ∨ v ∉ st.1) := by
  intro fuel
  induction fuel with
  | zero =>
    intro node stack st _ hf
    omega
  | succ fuel ih =>
    intro node stack st hnode hfuel hstack hinv
    obtain ⟨i1, i2, i3, i4, i5, i6⟩ := hinv
    by_cases hmem : node ∈ st.1
    · simp only [visit, if_pos hmem]
      exact ⟨⟨i1, i2, i3, i4, i5, i6⟩, fun v hv => hv, ⟨[], by simp⟩, hmem,
        fun v hv => Or.inl hv⟩
    · simp only [visit, if_neg hmem]
      have hcs : ∀ c ∈ graphGet (buildGraph objects) node,
          c ∈ namesOf objects ∧ rank c < fuel ∧ (∀ m ∈ node :: stack, rank c < rank m) := by
        intro c hc
        have hcr := hrk node c hc
        refine ⟨graphGet_subset objects node c hc, by omega, ?_⟩
        intro m hm
        rcases List.mem_cons.mp hm with rfl | hm'
        · exact hcr
        · exact lt_trans hcr (hstack m hm')
      have hinv1 : VisitInv objects (buildGraph objects) (node :: stack)
          (node :: st.1, st.2) := by
        refine ⟨?_, ?_, i3, i4, i5, ?_⟩
        · intro v hv
          rcases List.mem_cons.mp hv with rfl | hv'
          · exact Or.inl (by simp)
          · rcases i1 v hv' with h | h
            · exact Or.inl (List.mem_cons_of_mem _ h)
            · exact Or.inr h
        · intro o ho
          exact List.mem_cons_of_mem _ (i2 o ho)
        · intro v hv
          rcases List.mem_cons.mp hv with rfl | hv'
          · exact hnode
          · exact i6 v hv'
      have hfold : ∀ (cs : List String) (st' : List String × List FCObj),
          (∀ c ∈ cs, c ∈ namesOf objects ∧ rank c < fuel
            ∧ (∀ m ∈ node :: stack, rank c < rank m)) →
          VisitInv objects (buildGraph objects) (node :: stack) st' →
          VisitInv objects (buildGraph objects) (node :: stack)
              (cs.foldl (fun s c => visit objects (buildGraph objects) fuel c s) st')
          ∧ (∀ v ∈ st'.1,
              v ∈ (cs.foldl (fun s c => visit objects (buildGraph objects) fuel c s) st').1)
          ∧ (∃ Δ, (cs.foldl (fun s c => visit objects (buildGraph objects) fuel c s) st').2
              = st'.2 ++ Δ)
          ∧ (∀ c ∈ cs,
              c ∈ (cs.foldl (fun s c => visit objects (buildGraph objects) fuel c s) st').1)
          ∧ (∀ v ∈ namesOf
              (cs.foldl (fun s c => visit objects (buildGraph objects) fuel c s) st').2,
              v ∈ namesOf st'.2 ∨ v ∉ st'.1) := by
        intro cs
        induction cs with
        | nil =>
          intro st' _ hi
          exact ⟨hi, fun v hv => hv, ⟨[], by simp⟩, by simp, fun v hv => Or.inl hv⟩
        | cons c cs ihc =>
          intro st' hcs' hi
          obtain ⟨a1, a2, a3, a4, a5⟩ := ih c (node :: stack) st'
            (hcs' c (by simp)).1 (hcs' c (by simp)).2.1 (hcs' c (by simp)).2.2 hi
          obtain ⟨b1, b2, b3, b4, b5⟩ := ihc
            (visit objects (buildGraph objects) fuel c st')
            (fun x hx => hcs' x (by simp [hx])) a1
          rw [List.foldl_cons]
          refine ⟨b1, fun v hv => b2 v (a2 v hv), ?_, ?_, ?_⟩
          · obtain ⟨Δ1, hΔ1⟩ := a3
            obtain ⟨Δ2, hΔ2⟩ := b3
            exact ⟨Δ1 ++ Δ2, by rw [hΔ2, hΔ1, List.append_assoc]⟩
          · intro x hx
            rcases List.mem_cons.mp hx with rfl | hx'
            · exact b2 x a4
            · exact b4 x hx'
          · intro v hv
            rcases b5 v hv with hv' | hv'
            · rcases a5 v hv' with h | h
              · exact Or.inl h
              · exact Or.inr h
            · right
              intro hvin
              exact hv' (a2 v hvin)
      obtain ⟨f1, f2, f3, f4, f5⟩ := hfold (graphGet (buildGraph objects) node)
        (node :: st.1, st.2) hcs hinv1
      obtain ⟨o, hfind, honame, ho⟩ := find?_byName objects node hnode
      rw [hfind]
      obtain ⟨g1, g2, g3, g4, g5, g6⟩ := f1
      have hnode_in : node ∈ (List.foldl
          (fun s c => visit objects (buildGraph objects) fuel c s)
          (node :: st.1, st.2) (graphGet (buildGraph objects) node)).1 :=
        f2 node (by simp)
      have hnode_notin_res : node ∉ namesOf (List.foldl
          (fun s c => visit objects (buildGraph objects) fuel c s)
          (node :: st.1, st.2) (graphGet (buildGraph objects) node)).2 := by
        intro hcon
        rcases f5 node hcon with h | h
        · obtain ⟨o', ho', hname⟩ := List.mem_map.mp h
          have := i2 o' ho'
          rw [hname] at this
          exact hmem this
        · exact h (by simp)
      have hdeps : ∀ c ∈ graphGet (buildGraph objects) node,
          c ∈ namesOf (List.foldl
            (fun s c => visit objects (buildGraph objects) fuel c s)
            (node :: st.1, st.2) (graphGet (buildGraph objects) node)).2 := by
        intro c hc
        have hcv := f4 c hc
        rcases g1 c hcv with h | h
        · exfalso
          rcases List.mem_cons.mp h with heq | h'
          · rw [heq] at hc
            exact lt_irrefl _ (hrk node node hc)
          · have h1 := hstack c h'
            have h2 := hrk node c hc
            omega
        · exact h
      refine ⟨⟨?_, ?_, ?_, ?_, ?_, g6⟩, ?_, ?_, ?_, ?_⟩
      · intro v hv
        rcases g1 v hv with h | h
        · rcases List.mem_cons.mp h with rfl | h'
          · right
            rw [namesOf, List.map_append]
            exact List.mem_append_right _ (by simp [honame])
          · exact Or.inl h'
        · right
          rw [namesOf, List.map_append]
          exact List.mem_append_left _ h
      · intro o' ho'
        rcases List.mem_append.mp ho' with h | h
        · exact g2 o' h
        · simp only [List.mem_singleton] at h
          rw [h, honame]
          exact hnode_in
      · intro o' ho'
        rcases List.mem_append.mp ho' with h | h
        · exact g3 o' h
        · simp only [List.mem_singleton] at h
          rw [h]
          exact ho
      · rw [namesOf, List.map_append]
        refine List.Nodup.append g4 (by simp) ?_
        intro v hv1 hv2
        simp only [List.map_cons, List.map_nil, List.mem_singleton] at hv2
        rw [hv2, honame] at hv1
        exact hnode_notin_res hv1
      · refine sortedOk_append _ _ _ g5 ?_
        rw [honame]
        exact hdeps
      · intro v hv
        exact f2 v (List.mem_cons_of_mem _ hv)
      · obtain ⟨Δ, hΔ⟩ := f3
        exact ⟨Δ ++ [o], by simp [hΔ]⟩
      · exact hnode_in
      · intro v hv
        rw [namesOf, List.map_append] at hv
        rcases List.mem_append.mp hv with h | h
        · rcases f5 v h with h' | h'
          · exact Or.inl h'
          · right
            intro hvin
            exact h' (List.mem_cons_of_mem _ hvin)
        · simp only [List.map_cons, List.map_nil, List.mem_singleton] at h
          rw [h, honame]
          exact Or.inr hmem

theorem sort_fold_spec (objects : List FCObj) (rank : String → Nat)
    (hrkG : ∀ n c, c ∈ graphGet (buildGraph objects) n → rank c < rank n)
    (hbd : ∀ n ∈ namesOf objects, rank n < objects.length + 1) :
    ∀ (os : List FCObj) (st : List String × List FCObj),
      (∀ o ∈ os, o ∈ objects) →
      VisitInv objects (buildGraph objects) [] st →
      VisitInv objects (buildGraph objects) []
        (os.foldl (fun st o =>
          visit objects (buildGraph objects) (objects.length + 1) o.name st) st)
      ∧ (∀ v ∈ st.1, v ∈ (os.foldl (fun st o =>
          visit objects (buildGraph objects) (objects.length + 1) o.name st) st).1)
      ∧ (∀ o ∈ os, o.name ∈ (os.foldl (fun st o =>
          visit objects (buildGraph objects) (objects.length + 1) o.name st) st).1) := by
  intro os
  induction os with
  | nil =>
    intro st _ hi
    exact ⟨hi, fun v hv => hv, by simp⟩
  | cons o os ih =>
    intro st hos hi
    have hmemo : o.name ∈ namesOf objects :=
      List.mem_map_of_mem _ (hos o (List.mem_cons_self o os))
    obtain ⟨a1, a2, _, a4, _⟩ := visit_spec objects rank hrkG (objects.length + 1)
      o.name [] st hmemo (hbd o.name hmemo) (by simp) hi
    obtain ⟨b1, b2, b3⟩ := ih
      (visit objects (buildGraph objects) (objects.length + 1) o.name st)
      (fun x hx => hos x (List.mem_cons_of_mem _ hx)) a1
    rw [List.foldl_cons]
    refine ⟨b1, fun v hv => b2 v (a2 v hv), ?_⟩
    intro x hx
    rcases List.mem_cons.mp hx with rfl | hx'
    · exact b2 x.name a4
    · exact b3 x hx'

/-- C4: for every acyclic input collection (acyclicity given by a rank
function decreasing along in-set dependency edges, with the names of the
inputs distinct as FreeCAD guarantees), `sort_by_dependencies` returns a
permutation of the input in which every entity appears after all of its
direct outgoing dependencies that are themselves in the input set.
Determinism for a fixed input order and fixed edges is definitional here:
the embedding is a pure function of the input list. -/
theorem c4_topological_sort_correct (objects : List FCObj) (rank : String → Nat)
    (hnd : (namesOf objects).Nodup)
    (hrk : ∀ n ∈ namesOf objects, ∀ c ∈ graphGet (buildGraph objects) n, rank c < rank n)
    (hbd : ∀ n ∈ namesOf objects, rank n < objects.length) :
    (sort_by_dependencies objects).Perm objects
    ∧ ∀ l₁ o l₂, sort_by_dependencies objects = l₁ ++ o :: l₂ →
        ∀ c ∈ o.outList, c ∈ namesOf objects → c ∈ namesOf l₁ := by
  have hrkG : ∀ n c, c ∈ graphGet (buildGraph objects) n → rank c < rank n :=
    fun n c hc => hrk n (graphGet_key objects n c hc) c hc
  have hinv0 : VisitInv objects (buildGraph objects) [] ([], []) :=
    ⟨by simp, by simp, by simp, by simp [namesOf],
      fun l₁ o l₂ h => absurd h (by simp), by simp⟩
  obtain ⟨⟨i1, i2, i3, i4, i5, _⟩, _, htop⟩ := sort_fold_spec objects rank hrkG
    (fun n hn => Nat.lt_succ_of_lt (hbd n hn)) objects ([], [])
    (fun o ho => ho) hinv0
  have hsub2 : ∀ o ∈ objects, o ∈ sort_by_dependencies objects := by
    intro o ho
    have h1 := htop o ho
    have h2 : o.name ∈ namesOf (sort_by_dependencies objects) := by
      rcases i1 o.name h1 with h | h
      · exact absurd h (by simp)
      · exact h
    obtain ⟨o', ho', hname⟩ := List.mem_map.mp h2
    have ho'obj : o' ∈ objects := i3 o' ho'
    have hoo : o' = o := by
      have hndm : (objects.map (fun o => o.name)).Nodup := hnd
      exact List.inj_on_of_nodup_map hndm ho'obj ho hname
    rw [← hoo]
    exact ho'
  have hndr : (sort_by_dependencies objects).Nodup := List.Nodup.of_map _ i4
  have hndo : objects.Nodup := List.Nodup.of_map _ hnd
  refine ⟨(List.perm_ext_iff_of_nodup hndr hndo).mpr
    (fun x => ⟨fun h => i3 x h, fun h => hsub2 x h⟩), ?_⟩
  intro l₁ o l₂ heq c hco hcn
  have homem0 : o ∈ sort_by_dependencies objects := by
    rw [heq]
    exact List.mem_append_right _ (List.mem_cons_self _ _)
  have homem : o ∈ objects := i3 o homem0
  have hg : c ∈ graphGet (buildGraph objects) o.name := by
    rw [graphGet_of_mem objects hnd o homem]
    simp only [List.mem_filter]
    exact ⟨hco, by simpa using hcn⟩
  exact i5 l₁ o l₂ heq c hg

theorem c4_witness :
    (namesOf [⟨"C", "C", none, none, none, ["B"]⟩, ⟨"B", "B", none, none, none, ["A"]⟩,
        ⟨"A", "A", none, none, none, []⟩]).Nodup
    ∧ (sort_by_dependencies [⟨"C", "C", none, none, none, ["B"]⟩,
        ⟨"B", "B", none, none, none, ["A"]⟩,
        ⟨"A", "A", none, none, none, []⟩]).Perm
      [⟨"C", "C", none, none, none, ["B"]⟩, ⟨"B", "B", none, none, none, ["A"]⟩,
        ⟨"A", "A", none, none, none, []⟩] :=
  ⟨by decide,
    (c4_topological_sort_correct
      [⟨"C", "C", none, none, none, ["B"]⟩, ⟨"B", "B", none, none, none, ["A"]⟩,
        ⟨"A", "A", none, none, none, []⟩]
      (fun n => if n == "C" then 2 else if n == "B" then 1 else 0)
      (by decide) (by decide) (by decide)).1⟩

end TopoHasher
